import Mathlib

/-!
Verification of the core string/spreadsheet logic of the DASHBOARD repository.

The file gives shallow Lean embeddings of the functions the specification
talks about: `parse_emails` and `perform_replacements` from `Bulk Mail.py`,
`EmailHandler.process_variables` from `src/modules/email_handler.py`,
`extract_cost_centre_codes` and `extract_limits` from
`process_delegation.py`, the Excel header-row detection and recipient
loading of `BulkMailerApp._load_data_from_excel`, the bulk send loop of
`BulkMailerApp._send_emails`, and one pass of the monitoring loop of
`ScriptRunner._start_monitoring`.

Modelling conventions: Python `None`-or-string cell values become
`Option String`; current date/time strings are passed in explicitly as a
record of strings; COM / Outlook / Tkinter side effects are abstracted to
oracles describing the outcome of each effectful step; machine time is
modelled as integer seconds.
-/

namespace Dashboard

/-- Truthiness of an optional string cell, as Python sees it: `None` and the
empty string are falsy. -/
def truthy : Option String → Bool
  | none => false
  | some s => s ≠ ""

/-- Python whitespace for `str.strip` / `\s` (ASCII part). -/
def pyIsSpace (c : Char) : Bool :=
  c = ' ' || c = '\t' || c = '\n' || c = '\r' || c = '\x0b' || c = '\x0c'

/-- Python `str.strip()` on a character list. -/
def pyStrip (l : List Char) : List Char :=
  ((l.dropWhile pyIsSpace).reverse.dropWhile pyIsSpace).reverse

/-- Python `str.strip()` on a string. -/
def pyStripS (s : String) : String := String.mk (pyStrip s.data)

/-- Python `str.split(sep)` for a one-character separator: `"".split(";")` is
`[""]`, and separators delimit (possibly empty) fields. -/
def splitChar (sep : Char) : List Char → List (List Char)
  | [] => [[]]
  | c :: cs =>
    if c = sep then [] :: splitChar sep cs
    else
      match splitChar sep cs with
      | [] => [[c]]
      | p :: ps => (c :: p) :: ps

/-- Python `sep.join(parts)`. -/
def joinSep (sep : String) : List String → String
  | [] => ""
  | [x] => x
  | x :: y :: xs => x ++ sep ++ joinSep sep (y :: xs)

/-! ### `parse_emails` (Bulk Mail.py) -/

/-- Embedding of `parse_emails` from `Bulk Mail.py`: split a semicolon-separated
email cell into the first address (To) and the remaining addresses joined with
"; " (CC).  Falsy input yields `("", "")`. -/
def parse_emails (email_cell : Option String) : String × String :=
  match email_cell with
  | none => ("", "")
  | some s =>
    if s = "" then ("", "")
    else
      let parts :=
        ((splitChar ';' s.data).map (fun l => String.mk (pyStrip l))).filter (fun e => e ≠ "")
      (parts.headD "", joinSep "; " parts.tail)

/-! ### Worksheet selection (Bulk Mail.py) -/

/-- The worksheet name constant of `Bulk Mail.py`. -/
def SHEET_NAME : String := "OUTSTANDING LOGS"

/-- Embedding of the worksheet choice in `BulkMailerApp._load_data_from_excel`:
the code tries `SHEET_NAME`, then "Sheet1", then falls back to the workbook's
first worksheet. -/
def selectSheet (sheetNames : List String) : Option String :=
  if SHEET_NAME ∈ sheetNames then some SHEET_NAME
  else if "Sheet1" ∈ sheetNames then some "Sheet1"
  else sheetNames.head?

/-! ### Placeholder replacement (`perform_replacements`, Bulk Mail.py) -/

/-- Python `str.lower()` (ASCII case mapping). -/
def pyLower (s : String) : String := String.mk (s.data.map Char.toLower)

/-- Python `str(v)` over the row map's optional values, with `None` mapped to
the empty string as the dict comprehension does. -/
def strOfOpt : Option String → String
  | none => ""
  | some s => s

/-- Dict as an association list: insert-or-overwrite, as Python dict update. -/
def dictSet (d : List (String × String)) (k v : String) : List (String × String) :=
  if d.any (fun p => p.1 == k) then d.map (fun p => if p.1 == k then (k, v) else p)
  else d ++ [(k, v)]

/-- Python `dict.get(k)`. -/
def dictGet? (d : List (String × String)) (k : String) : Option String :=
  (d.find? (fun p => p.1 == k)).map (fun p => p.2)

/-- Python `dict.get(k, default)`. -/
def dictGetD (d : List (String × String)) (k dflt : String) : String :=
  (dictGet? d k).getD dflt

/-- Python `dict.setdefault(k, v)` (result dict). -/
def dictSetdefault (d : List (String × String)) (k v : String) :
    List (String × String) :=
  if (dictGet? d k).isSome then d else d ++ [(k, v)]

/-- Python truthiness of `dict.get(k)`: key present with a non-empty value. -/
def dictTruthy (d : List (String × String)) (k : String) : Bool :=
  match dictGet? d k with
  | none => false
  | some s => s ≠ ""

/-- Python `str.split()` (whitespace-separated words, empties dropped),
accumulator form. -/
def pyWordsAux (acc : List Char) : List Char → List (List Char)
  | [] => if acc.isEmpty then [] else [acc.reverse]
  | c :: cs =>
    if pyIsSpace c then
      if acc.isEmpty then pyWordsAux [] cs else acc.reverse :: pyWordsAux [] cs
    else pyWordsAux (c :: acc) cs

/-- Python `str.split()` on a string. -/
def pyWords (s : String) : List String := (pyWordsAux [] s.data).map String.mk

/-- Current date/time strings used by the generic placeholders. -/
structure NowFields where
  today : String
  full_date : String
  time : String
  timestamp : String
  year : String
  month : String
  weekday : String
deriving DecidableEq

/-- The base lookup of `perform_replacements`: keys lowercased, `None` values
replaced by the empty string (later duplicates overwrite). -/
def lookupBase (row_map : List (String × Option String)) : List (String × String) :=
  row_map.foldl (fun d kv => dictSet d (pyLower kv.1) (strOfOpt kv.2)) []

/-- The derived `full_name` value: the existing truthy `full_name`, else
first name plus (if truthy) a space and the last name. -/
def fullValue (d : List (String × String)) : String :=
  if dictTruthy d "full_name" then dictGetD d "full_name" ""
  else
    dictGetD d "first_name" ""
      ++ (if dictTruthy d "last_name" then " " ++ dictGetD d "last_name" "" else "")

/-- Add the derived `full_name` field. -/
def lookupFull (d : List (String × String)) : List (String × String) :=
  dictSetdefault d "full_name" (fullValue d)

/-- Derive `first_name`/`last_name` by splitting a `name` field, when
`first_name` is absent and `name` is present. -/
def lookupNameSplit (d : List (String × String)) : List (String × String) :=
  if (dictGet? d "first_name").isNone ∧ (dictGet? d "name").isSome then
    if pyWords (dictGetD d "name" "") ≠ [] then
      dictSetdefault
        (dictSetdefault d "first_name" ((pyWords (dictGetD d "name" "")).headD ""))
        "last_name"
        (if (pyWords (dictGetD d "name" "")).length > 1 then
          joinSep " " (pyWords (dictGetD d "name" "")).tail
         else "")
    else d
  else d

/-- The card number drawn from `card_number`, `cardno` or `card` (first
truthy). -/
def cardValue (d : List (String × String)) : String :=
  if dictTruthy d "card_number" then dictGetD d "card_number" ""
  else if dictTruthy d "cardno" then dictGetD d "cardno" ""
  else if dictTruthy d "card" then dictGetD d "card" ""
  else ""

/-- Add the derived `card_last4` field: the last four digits of the card
number (or all its digits when fewer than four). -/
def lookupCard (d : List (String × String)) : List (String × String) :=
  if cardValue d ≠ "" then
    dictSetdefault d "card_last4"
      (String.mk
        (let digits := (cardValue d).data.filter Char.isDigit
         if 4 ≤ digits.length then digits.drop (digits.length - 4) else digits))
  else d

/-- Add the generic date/time placeholders. -/
def lookupNow (nf : NowFields) (d : List (String × String)) : List (String × String) :=
  dictSetdefault (dictSetdefault (dictSetdefault (dictSetdefault (dictSetdefault
    (dictSetdefault (dictSetdefault d "today" nf.today) "full_date" nf.full_date)
    "time" nf.time) "timestamp" nf.timestamp) "year" nf.year) "month" nf.month)
    "weekday" nf.weekday

/-- The full lookup dict of `perform_replacements`. -/
def buildLookup (row_map : List (String × Option String)) (nf : NowFields) :
    List (String × String) :=
  lookupNow nf (lookupCard (lookupNameSplit (lookupFull (lookupBase row_map))))

/-- One-pass scanner for the regex `<([^<>]+)>`: outside a token (`none`) a
`<` opens a token attempt; inside (`some acc`) a `>` closes it (substituting
the trimmed, lowercased key's lookup value, or the empty string), another `<`
aborts the attempt and restarts, and the end of input aborts it. -/
def substScan (lk : List (String × String)) : Option (List Char) → List Char → List Char
  | none, [] => []
  | none, c :: rest =>
    if c = '<' then substScan lk (some []) rest else c :: substScan lk none rest
  | some acc, [] => '<' :: acc.reverse
  | some acc, c :: rest =>
    if c = '>' then
      if acc.isEmpty then '<' :: '>' :: substScan lk none rest
      else
        (dictGetD lk (pyLower (pyStripS (String.mk acc.reverse))) "").data
          ++ substScan lk none rest
    else if c = '<' then '<' :: (acc.reverse ++ substScan lk (some []) rest)
    else substScan lk (some (c :: acc)) rest

/-- Embedding of `perform_replacements` from `Bulk Mail.py`: a falsy template
yields "", otherwise every `<key>` token is replaced through the lookup built
from the row map and the derived fields. -/
def perform_replacements (template : Option String)
    (row_map : List (String × Option String)) (nf : NowFields) : String :=
  match template with
  | none => ""
  | some t =>
    if t = "" then "" else String.mk (substScan (buildLookup row_map nf) none t.data)

/-! ### Template replacement (`EmailHandler.process_variables`) -/

/-- Python `text.replace(pat, rep)` on character lists: scan left to right,
replacing non-overlapping occurrences of a non-empty pattern. -/
def pyReplace (pat rep : List Char) : List Char → List Char
  | [] => []
  | c :: cs =>
    if pat ≠ [] ∧ pat.isPrefixOf (c :: cs) then
      rep ++ pyReplace pat rep (cs.drop (pat.length - 1))
    else
      c :: pyReplace pat rep cs
termination_by l => l.length
decreasing_by
  · simp only [List.length_drop, List.length_cons]
    omega
  · simp only [List.length_cons]
    omega

/-- Python `s.replace(pat, rep)` on strings. -/
def pyReplaceS (s pat rep : String) : String :=
  String.mk (pyReplace pat.data rep.data s.data)

/-- Whether `pat` occurs as a contiguous sublist. -/
def containsSub (pat : List Char) : List Char → Bool
  | [] => pat.isEmpty
  | c :: cs => pat.isPrefixOf (c :: cs) || containsSub pat cs

/-- A character list without braces, so it contains no `{name}` pattern
boundary. -/
def braceFree (l : List Char) : Bool := l.all (fun c => c != '{' && c != '}')

/-- The `{name}` pattern string built by `process_variables`. -/
def tokenStr (n : String) : String := "\x7b" ++ n ++ "\x7d"

/-- Current date/time strings substituted by `process_variables`. -/
structure NowVars where
  today : String
  full_date : String
  time : String
deriving DecidableEq

/-- The `common_vars` dict of `process_variables`: current date/time strings
and the fixed organisation name. -/
def commonVars (nv : NowVars) : List (String × String) :=
  [("today", nv.today), ("full_date", nv.full_date), ("time", nv.time),
   ("organisation", "Finance Department")]

/-- One replacement step of `process_variables`: replace every occurrence of
`{name}` by the (string) value. -/
def varStep (acc : String) (kv : String × String) : String :=
  pyReplaceS acc (tokenStr kv.1) kv.2

/-- Embedding of `EmailHandler.process_variables`: replace `{name}` for every
name/value pair of the variables dict (in dict order), then replace the four
common variables. -/
def process_variables (text : String) (vars : List (String × String)) (nv : NowVars) :
    String :=
  (commonVars nv).foldl varStep (vars.foldl varStep text)

/-- Spec-side template model for `process_variables`: a text is an
alternation of literal segments and `\x7bname\x7d` placeholders. -/
inductive TItem where
  | lit (s : String)
  | ph (n : String)
deriving DecidableEq

/-- Render a template to its character data: literals verbatim, a placeholder
named `n` as `\x7bn\x7d`. -/
def renderT : List TItem → List Char
  | [] => []
  | TItem.lit s :: its => s.data ++ renderT its
  | TItem.ph n :: its => '{' :: (n.data ++ '}' :: renderT its)

/-- A well-formed template item carries no stray braces. -/
def itemWF : TItem → Bool
  | TItem.lit s => braceFree s.data
  | TItem.ph n => braceFree n.data

/-- Replace the placeholder named `n` by the literal value `v` throughout a
template. -/
def substPh (n v : String) : List TItem → List TItem
  | [] => []
  | TItem.lit s :: its => TItem.lit s :: substPh n v its
  | TItem.ph m :: its => (if m = n then TItem.lit v else TItem.ph m) :: substPh n v its

/-- First value bound to `n` in an association list (a Python dict cannot
repeat keys, so the first binding is the binding). -/
def firstVal (n : String) : List (String × String) → Option String
  | [] => none
  | kv :: kvs => if kv.1 = n then some kv.2 else firstVal n kvs

/-- Spec-side resolution of a placeholder name, as the claim reads: the bound
value where the name is bound, else the `\x7bname\x7d` token itself. -/
def resolveIn (pairs : List (String × String)) (n : String) : List Char :=
  ((firstVal n pairs).map String.data).getD ('{' :: (n.data ++ ['}']))

/-- Spec-side rendering of a template with every placeholder resolved. -/
def renderWith (pairs : List (String × String)) : List TItem → List Char
  | [] => []
  | TItem.lit s :: its => s.data ++ renderWith pairs its
  | TItem.ph n :: its => resolveIn pairs n ++ renderWith pairs its

/-- Concrete template exercising `process_variables`: a repeated dict
placeholder, two common variables and an unbound token. -/
def itemsW : List TItem :=
  [TItem.lit "Hi ", TItem.ph "name", TItem.lit " and ", TItem.ph "name",
   TItem.lit ": ", TItem.ph "today", TItem.lit " ", TItem.ph "organisation",
   TItem.lit " ", TItem.ph "missing"]

/-! ### Bulk send loop (`BulkMailerApp._send_emails`) -/

/-- Outcome of processing one selected index in the send loop, abstracting the
Outlook COM side effects: the recipient lookup can fail, the recipient can
lack a valid To address, preparing/sending can raise, or the mail is sent. -/
inductive SendOutcome where
  | sent : SendOutcome
  | indexError (msg : String) : SendOutcome
  | noValidEmail (display : String) : SendOutcome
  | sendFailure (display msg : String) : SendOutcome
deriving DecidableEq

/-- Error message recorded for a failing outcome, mirroring the strings
appended to `errors` in `_send_emails`; `none` means the mail was sent. -/
def errMsgOf (idx : Nat) : SendOutcome → Option String
  | SendOutcome.sent => none
  | SendOutcome.indexError m =>
      some ("Index error for selected index " ++ toString idx ++ ": " ++ m)
  | SendOutcome.noValidEmail d => some ("No valid To email for recipient " ++ d)
  | SendOutcome.sendFailure d m => some ("Failed to send to " ++ d ++ ": " ++ m)

/-- State threaded through the send loop. -/
structure SendState where
  sent_count : Nat
  errors : List String
deriving DecidableEq

/-- One iteration of the send loop body: a failure appends its error message
and the loop goes on; a success increments the counter. -/
def sendStep (oc : Nat → SendOutcome) (st : SendState) (idx : Nat) : SendState :=
  match errMsgOf idx (oc idx) with
  | none => { st with sent_count := st.sent_count + 1 }
  | some m => { st with errors := st.errors ++ [m] }

/-- Embedding of the loop of `_send_emails` over the selected indices; `oc` is
the oracle giving each iteration's outcome. -/
def send_emails (selected : List Nat) (oc : Nat → SendOutcome) : SendState :=
  selected.foldl (sendStep oc) ⟨0, []⟩

/-- The summary message shown after the loop. -/
def sendSummary (st : SendState) : String :=
  let base := "Emails sent: " ++ toString st.sent_count ++ "\n"
  if st.errors ≠ [] then base ++ ("\nErrors:\n" ++ joinSep "\n" st.errors) else base

/-! ### Script runner monitoring (`ScriptRunner._start_monitoring`) -/

/-- The script statuses of `script_runner.py`. -/
inductive ScriptStatus where
  | pending : ScriptStatus
  | running : ScriptStatus
  | success : ScriptStatus
  | failed : ScriptStatus
  | cancelled : ScriptStatus
  | timeout : ScriptStatus
deriving DecidableEq

/-- Default `ScriptInfo.timeout` in seconds, from the dataclass. -/
def defaultScriptTimeout : Int := 300

/-- Abstract state of a subprocess: still running, or exited with a code. -/
inductive ProcState where
  | alive : ProcState
  | exited (code : Int) : ProcState
deriving DecidableEq

/-- One script execution as the monitor sees it (times in integer seconds). -/
structure Execution where
  status : ScriptStatus
  startTime : Int
  timeoutSec : Int
  endTime : Option Int
  exitCode : Option Int
  process : Option ProcState
deriving DecidableEq

/-- Embedding of `ScriptRunner.stop_script` on one execution: if the process
is still alive it is terminated (or killed), exiting with code `kc`; the
status becomes CANCELLED and the end time is recorded.  Otherwise nothing
changes and the method returns False. -/
def stop_script (kc now : Int) (e : Execution) : Execution :=
  match e.process with
  | some ProcState.alive =>
      { e with process := some (ProcState.exited kc),
               status := ScriptStatus.cancelled,
               endTime := some now,
               exitCode := some kc }
  | _ => e

/-- Embedding of the per-execution body of the monitor loop in
`_start_monitoring`: a finished process is marked SUCCESS or FAILED by exit
code; otherwise a RUNNING execution whose runtime exceeds its script's
timeout is stopped via `stop_script` and then marked TIMEOUT. -/
def monitorStepExec (kc now : Int) (e : Execution) : Execution :=
  match e.process with
  | some (ProcState.exited code) =>
      { e with endTime := some now, exitCode := some code,
               status := if code = 0 then ScriptStatus.success else ScriptStatus.failed }
  | _ =>
      if e.status = ScriptStatus.running ∧ now - e.startTime > e.timeoutSec then
        { stop_script kc now e with status := ScriptStatus.timeout }
      else e

/-- Whether an execution is in a completed state (used by the one-hour
cleanup at the end of the monitor pass). -/
def isCompleted (e : Execution) : Bool :=
  e.status = ScriptStatus.success || e.status = ScriptStatus.failed ||
    e.status = ScriptStatus.cancelled || e.status = ScriptStatus.timeout

/-- One full pass of the monitor loop over the running executions, followed by
the cleanup of completed executions that ended more than an hour ago. -/
def monitorPass (kc now : Int) (execs : List Execution) : List Execution :=
  (execs.map (monitorStepExec kc now)).filter
    (fun e =>
      !(isCompleted e &&
        (match e.endTime with
         | some t => decide (t < now - 3600)
         | none => false)))

/-! ### Cost centre code extraction (`process_delegation.py`) -/

/-- Regex word character `\w` over ASCII text: letters, digits, underscore. -/
def isWordChar (c : Char) : Bool := c.isAlphanum || c = '_'

/-- The cleaning pipeline of `extract_cost_centre_codes`: non-breaking spaces
to spaces, zero-width spaces removed, non-ASCII removed, pipes to spaces. -/
def cleanCodes (l : List Char) : List Char :=
  (((l.map fun c => if c = '\u00A0' then ' ' else c).filter
      fun c => c != '\u200B').filter fun c => decide (c.val ≤ 0x7F)).map
    fun c => if c = '|' then ' ' else c

/-- Scanner for the regex `\b\d{8,}\b`: collect maximal digit runs and keep
those of length at least 8 whose neighbouring characters (when they exist)
are not word characters.  State: whether the run under construction began at
a word boundary (`okStart`), whether the previous character was a word
character (`lastWord`), and the reversed run built so far (`acc`). -/
def runsGo (okStart lastWord : Bool) (acc : List Char) : List Char → List (List Char)
  | [] => if okStart ∧ acc ≠ [] ∧ 8 ≤ acc.length then [acc.reverse] else []
  | c :: cs =>
    if c.isDigit then
      if acc.isEmpty then runsGo (!lastWord) true [c] cs
      else runsGo okStart true (c :: acc) cs
    else
      (if okStart ∧ acc ≠ [] ∧ 8 ≤ acc.length ∧ ¬isWordChar c then [acc.reverse] else [])
        ++ runsGo false (isWordChar c) [] cs

/-- The codes found by `re.findall(r'\b\d{8,}\b', ...)` on the cleaned text. -/
def findCodes (t : List Char) : List String :=
  (runsGo false false [] (cleanCodes t)).map String.mk

/-- Lexicographic comparison on code points, as Python string `<=`. -/
def lexLe : List Char → List Char → Bool
  | [], _ => true
  | _ :: _, [] => false
  | a :: as, b :: bs => if a < b then true else if a = b then lexLe as bs else false

/-- Insertion into a lexicographically sorted list. -/
def insSorted (s : String) : List String → List String
  | [] => [s]
  | t :: ts => if lexLe s.data t.data then s :: t :: ts else t :: insSorted s ts

/-- Python `sorted` on strings (insertion sort; the input is duplicate-free). -/
def sortStrings (l : List String) : List String := l.foldr insSorted []

/-- Result record of `extract_cost_centre_codes`. -/
structure CodesResult where
  ten_digit : String
  eight_digit : String
deriving DecidableEq

/-- Embedding of `extract_cost_centre_codes`: find the word-bounded digit
runs of length ≥ 8 in the cleaned text, sort the distinct ones, and join the
ten-digit and eight-digit ones with " // ". -/
def extract_cost_centre_codes (page_text : List Char) : CodesResult :=
  { ten_digit :=
      joinSep " // "
        ((sortStrings (findCodes page_text).dedup).filter fun c => c.length == 10),
    eight_digit :=
      joinSep " // "
        ((sortStrings (findCodes page_text).dedup).filter fun c => c.length == 8) }

/-- Specification-side predicate, following the spec's words: `r` is a
word-bounded digit run of `text` — a non-empty all-digit block whose
neighbouring characters, when they exist, are not word characters. -/
def wordBoundedRun (text r : List Char) : Prop :=
  ∃ pre post, text = pre ++ r ++ post ∧ r ≠ [] ∧ r.all Char.isDigit = true ∧
    (∀ c, pre.getLast? = some c → isWordChar c = false) ∧
    (∀ c, post.head? = some c → isWordChar c = false)

/-- Whether the text after a candidate run starts at a word boundary. -/
def boundaryOk (rest : List Char) : Bool :=
  match rest with
  | [] => true
  | c :: _ => !isWordChar c

/-! ### Financial limits extraction (`process_delegation.py`) -/

/-- The twelve financial headings of `process_delegation.py`, verbatim. -/
def FINANCIAL_HEADINGS : List String :=
  ["Issuing orders/ approving payment commitments",
   "Authorising Invoices - in relation to orders/commitments made within the Budget Area (where the Delegated Officer has not authorised the order)",
   "Authorising Invoices/Payments – in relation to orders/commitments authorised external to the Budget Area",
   "Purchase Card Single Transaction Limit",
   "Purchase Card Monthly Limit",
   "Approval of the write - Off of assets, inventory or stock",
   "Authorisation of Imprest / Petty Cash Payments",
   "Approval of Off – Island Travel Requests",
   "Approval of overtime & enhanced payments",
   "Approval of mileage, travel & subsistence claims",
   "Approval of Credit Facilities to 3rd Parties",
   "Approval to write-off individual debts"]

/-- Collapse every whitespace run to a single space, tracking whether the
previous character was whitespace. -/
def collapseWs (prevWs : Bool) : List Char → List Char
  | [] => []
  | c :: cs =>
    if pyIsSpace c then
      if prevWs then collapseWs true cs else ' ' :: collapseWs true cs
    else c :: collapseWs false cs

/-- The cleaned text of `extract_limits`: whitespace collapsed, then
stripped. -/
def cleanLimits (t : List Char) : List Char := pyStrip (collapseWs false t)

/-- ASCII lowercasing of a character list. -/
def lowerL (l : List Char) : List Char := l.map Char.toLower

/-- Case-insensitive prefix test. -/
def ciPrefix (pat l : List Char) : Bool := (lowerL pat).isPrefixOf (lowerL l)

/-- First index at which the literal pattern matches case-insensitively, as
`re.search(re.escape(pat), text, re.IGNORECASE)`. -/
def searchCI (pat : List Char) : List Char → Option Nat
  | [] => if pat.isEmpty then some 0 else none
  | c :: cs =>
    if ciPrefix pat (c :: cs) then some 0
    else (searchCI pat cs).map (fun i => i + 1)

/-- Remove every case-insensitive occurrence of a non-empty pattern, as
`re.sub(re.escape(pat), "", text, flags=re.IGNORECASE)`; `skip` counts
pattern characters still being dropped. -/
def removeCI (pat : List Char) : Nat → List Char → List Char
  | _, [] => []
  | Nat.succ k, _ :: rest => removeCI pat k rest
  | 0, c :: rest =>
    if pat ≠ [] ∧ ciPrefix pat (c :: rest) then removeCI pat (pat.length - 1) rest
    else c :: removeCI pat 0 rest

/-- Whether a split marker starts here: `FINANCIAL DIRECTION [A-Z]:` or
`OTHER FINANCIAL DELEGATIONS`, case-insensitively. -/
def markerAt (l : List Char) : Bool :=
  ciPrefix "OTHER FINANCIAL DELEGATIONS".data l ||
    (ciPrefix "FINANCIAL DIRECTION ".data l &&
      (match l.drop 20 with
       | c :: ':' :: _ => c.isAlpha
       | _ => false))

/-- The part of the chunk before the first split marker
(`re.split(...)[0]`). -/
def truncAtMarker : List Char → List Char
  | [] => []
  | c :: cs => if markerAt (c :: cs) then [] else c :: truncAtMarker cs

/-- The heading/match-start boundary list of `extract_limits`. -/
def limitBoundaries (cleanL : List Char) : List (String × Option Nat) :=
  FINANCIAL_HEADINGS.map (fun h => (h, searchCI h.data cleanL))

/-- The first defined match start among the remaining boundaries. -/
def nextFoundStart : List (String × Option Nat) → Option Nat
  | [] => none
  | (_, some s) :: _ => some s
  | (_, none) :: rest => nextFoundStart rest

/-- The carved entry for one heading: "None" when the heading was not found;
otherwise the text from its match to the next found heading (Python slices
to the end when `next_start` is `None` or falsy 0), stripped, with the
heading's occurrences removed, truncated at the first split marker, and
"None" when the final chunk is empty. -/
def limitEntry (cleanL : List Char) (h : String) (startPos : Option Nat)
    (rest : List (String × Option Nat)) : String :=
  match startPos with
  | none => "None"
  | some s =>
    let chunk0 :=
      match nextFoundStart rest with
      | some e => if e ≠ 0 then (cleanL.drop s).take (e - s) else cleanL.drop s
      | none => cleanL.drop s
    let chunk2 := pyStrip (removeCI h.data 0 (pyStrip chunk0))
    let chunk3 := pyStrip (truncAtMarker chunk2)
    if chunk3 = [] then "None" else String.mk chunk3

/-- The carving loop of `extract_limits` over the boundary list. -/
def carveLimits (cleanL : List Char) : List (String × Option Nat) → List String
  | [] => []
  | (h, pos) :: rest => limitEntry cleanL h pos rest :: carveLimits cleanL rest

/-- Embedding of `extract_limits` from `process_delegation.py`. -/
def extract_limits (page_text : List Char) : List String :=
  carveLimits (cleanLimits page_text) (limitBoundaries (cleanLimits page_text))

/-! ### Excel header-row detection and recipient loading -/

/-- Abstract worksheet: cell values (`none` models an empty cell / `None`),
with the used-range extents.  Rows and columns are 1-based as in COM. -/
structure Sheet where
  cell : Nat → Nat → Option String
  lastRow : Nat
  lastCol : Nat

/-- Whether a cell counts as non-empty (`val not in (None, "")`). -/
def cellNonEmpty (s : Sheet) (r c : Nat) : Bool :=
  match s.cell r c with
  | none => false
  | some v => v ≠ ""

/-- Number of non-empty cells of row `r` over columns `1..lastCol`. -/
def rowNonEmptyCount (s : Sheet) (r : Nat) : Nat :=
  ((List.range' 1 s.lastCol).filter (fun c => cellNonEmpty s r c)).length

/-- The candidate header rows `1..min(10, lastRow)` of the detection loop. -/
def headerCandidates (s : Sheet) : List Nat := List.range' 1 (min 10 s.lastRow)

/-- Loop body of the header-row detection: update on strictly more non-empty
cells. -/
def headerStep (cnt : Nat → Nat) (acc : Nat × Nat) (r : Nat) : Nat × Nat :=
  if cnt r > acc.2 then (r, cnt r) else acc

/-- Embedding of the header-row detection of `_load_data_from_excel`: start
from `(header_row, max_nonempty) = (1, 0)` and scan rows `1..min(10, lastRow)`. -/
def detectHeaderRow (s : Sheet) : Nat :=
  ((headerCandidates s).foldl (headerStep (rowNonEmptyCount s)) (1, 0)).1

/-- Embedding of the send-flag test at the top of the recipient loop: the row
is processed only when the column-1 cell is truthy and its trimmed upper-cased
string equals "X". -/
def sendFlagOk (s : Sheet) (r : Nat) : Bool :=
  match s.cell r 1 with
  | none => false
  | some v => v != "" && (String.mk ((pyStrip v.data).map Char.toUpper) == "X")

/-- A loaded recipient entry (the fields the claims are about; the display
name and CC assembly feed only the GUI and Outlook fields). -/
structure Recipient where
  row : Nat
  to_email : String
deriving DecidableEq

/-- Per-row body of the recipient loop: a row yields a recipient only when its
send flag is the trimmed upper-case "X" and the cardholder email parsed from
column 8 is non-empty. -/
def rowRecipient (s : Sheet) (r : Nat) : Option Recipient :=
  if !sendFlagOk s r then none
  else
    let parsed := parse_emails (s.cell r 8)
    if parsed.1 = "" then none else some ⟨r, parsed.1⟩

/-- The data rows scanned by the recipient loop: strictly below the detected
header row, up to the last used row. -/
def dataRows (s : Sheet) : List Nat :=
  List.range' (detectHeaderRow s + 1) (s.lastRow - detectHeaderRow s)

/-- Embedding of the recipient-collecting loop of `_load_data_from_excel`. -/
def loadRecipients (s : Sheet) : List Recipient :=
  (dataRows s).filterMap (rowRecipient s)

/-- Concrete worksheet used by the witnesses: header on row 2, one selected
data row (row 3) with a cardholder email in column 8, and a row 4 whose send
flag is empty. -/
def sheetW : Sheet where
  cell r c :=
    if r = 2 then some "Header"
    else if r = 3 ∧ c = 1 then some " x "
    else if r = 3 ∧ c = 8 then some "card@gov.im; mgr@gov.im"
    else if r = 4 ∧ c = 8 then some "lost@gov.im"
    else none
  lastRow := 4
  lastCol := 8

/-- Worksheet with no non-empty cells, for the header-detection default. -/
def sheetEmpty : Sheet where
  cell _ _ := none
  lastRow := 5
  lastCol := 3

end Dashboard

namespace Dashboard

/-! ### Theorems -/

/-- C7: `parse_emails` returns `("", "")` on falsy input; otherwise it splits
the input on ';', trims the parts and drops the empty ones, takes the first
remaining part as the To address (or "" if none remain) and joins the rest
with "; " as the CC string. -/
theorem c7_parse_emails_spec :
    parse_emails none = ("", "") ∧ parse_emails (some "") = ("", "") ∧
    ∀ s : String, s ≠ "" →
      parse_emails (some s) =
        ((((splitChar ';' s.data).map (fun l => String.mk (pyStrip l))).filter
            (fun e => e ≠ "")).headD "",
         joinSep "; "
           ((((splitChar ';' s.data).map (fun l => String.mk (pyStrip l))).filter
              (fun e => e ≠ "")).tail)) := by
  refine ⟨rfl, rfl, ?_⟩
  intro s hs
  simp [parse_emails, hs]

/-- Witness for C7 at a concrete semicolon-separated cell. -/
theorem c7_parse_emails_witness :
    parse_emails (some " a@x.im ; b@y.im ;; c@z.im") = ("a@x.im", "b@y.im; c@z.im") := by
  have h := c7_parse_emails_spec.2.2 " a@x.im ; b@y.im ;; c@z.im" (by decide)
  rw [h]; decide

/-- C4: the constant worksheet name is "OUTSTANDING LOGS", and whenever the
workbook contains a worksheet of that name, `selectSheet` picks it, so
recipient rows are read from the "OUTSTANDING LOGS" worksheet. -/
theorem c4_sheet_selection :
    SHEET_NAME = "OUTSTANDING LOGS" ∧
    ∀ sheetNames : List String, SHEET_NAME ∈ sheetNames →
      selectSheet sheetNames = some "OUTSTANDING LOGS" := by
  refine ⟨rfl, ?_⟩
  intro ns h
  unfold selectSheet
  rw [if_pos h]
  rfl

/-- Witness for C4 on a workbook that has the sheet. -/
theorem c4_sheet_selection_witness :
    selectSheet ["Sheet1", "OUTSTANDING LOGS", "Misc"] = some "OUTSTANDING LOGS" := by
  exact c4_sheet_selection.2 ["Sheet1", "OUTSTANDING LOGS", "Misc"] (by decide)

/-- Loop invariant of the send loop: folding from any state adds exactly the
successful sends to the counter and appends exactly the failure messages. -/
theorem sendLoopInv (oc : Nat → SendOutcome) :
    ∀ (l : List Nat) (st : SendState),
      (l.foldl (sendStep oc) st).sent_count
          = st.sent_count + (l.filter (fun i => oc i = SendOutcome.sent)).length ∧
      (l.foldl (sendStep oc) st).errors
          = st.errors ++ l.filterMap (fun i => errMsgOf i (oc i)) := by
  intro l
  induction l with
  | nil => intro st; simp
  | cons i rest ih =>
    intro st
    obtain ⟨h1, h2⟩ := ih (sendStep oc st i)
    constructor
    · rw [List.foldl_cons, h1, List.filter_cons]
      cases hoc : oc i <;> simp [sendStep, errMsgOf, hoc] <;> omega
    · rw [List.foldl_cons, h2, List.filterMap_cons]
      cases hoc : oc i <;> simp [sendStep, errMsgOf, hoc]

/-- An iteration records no error exactly when the mail was sent. -/
theorem errMsgOf_eq_none (idx : Nat) (o : SendOutcome) :
    errMsgOf idx o = none ↔ o = SendOutcome.sent := by
  cases o <;> simp [errMsgOf]

/-- Successes and recorded failures together account for every selected index. -/
theorem sendPartition (oc : Nat → SendOutcome) :
    ∀ l : List Nat,
      (l.filter (fun i => oc i = SendOutcome.sent)).length
          + (l.filterMap (fun i => errMsgOf i (oc i))).length = l.length := by
  intro l
  induction l with
  | nil => simp
  | cons i rest ih =>
    rw [List.filter_cons, List.filterMap_cons]
    by_cases hs : oc i = SendOutcome.sent
    · have hm : errMsgOf i (oc i) = none := (errMsgOf_eq_none i (oc i)).mpr hs
      rw [hm]
      simp [hs]
      omega
    · have hm : errMsgOf i (oc i) ≠ none := fun h => hs ((errMsgOf_eq_none i (oc i)).mp h)
      rcases ho : errMsgOf i (oc i) with _ | m
      · exact absurd ho hm
      · simp [hs]
        omega

/-- C8: in the bulk send loop a failure for one selected recipient is recorded
as one error entry and does not stop the loop: the final counter counts
exactly the successful sends among all selected indices, the error list holds
exactly the messages of all failed ones, the two together account for every
selected index, and the final summary reports the sent count and every
recorded error. -/
theorem c8_send_loop_spec (selected : List Nat) (oc : Nat → SendOutcome) :
    (send_emails selected oc).sent_count
        = (selected.filter (fun i => oc i = SendOutcome.sent)).length ∧
    (send_emails selected oc).errors
        = selected.filterMap (fun i => errMsgOf i (oc i)) ∧
    (send_emails selected oc).sent_count + (send_emails selected oc).errors.length
        = selected.length ∧
    sendSummary (send_emails selected oc)
        = "Emails sent: " ++ toString (send_emails selected oc).sent_count ++ "\n"
            ++ (if (send_emails selected oc).errors ≠ [] then
                  "\nErrors:\n" ++ joinSep "\n" (send_emails selected oc).errors
                else "") := by
  obtain ⟨h1, h2⟩ := sendLoopInv oc selected ⟨0, []⟩
  have h1' : (send_emails selected oc).sent_count
      = (selected.filter (fun i => oc i = SendOutcome.sent)).length := by
    simpa [send_emails] using h1
  have h2' : (send_emails selected oc).errors
      = selected.filterMap (fun i => errMsgOf i (oc i)) := by
    simpa [send_emails] using h2
  refine ⟨h1', h2', ?_, ?_⟩
  · rw [h1', h2']; exact sendPartition oc selected
  · unfold sendSummary
    by_cases he : (send_emails selected oc).errors = [] <;>
      simp [he, String.append_assoc]

/-- Single-exec timeout transition of the monitor: a RUNNING execution past
its timeout whose process is alive is stopped and marked TIMEOUT. -/
theorem monitorTimeoutTransition (kc now : Int) (e : Execution)
    (hrun : e.status = ScriptStatus.running)
    (hover : now - e.startTime > e.timeoutSec)
    (halive : e.process = some ProcState.alive) :
    (monitorStepExec kc now e).status = ScriptStatus.timeout ∧
    (monitorStepExec kc now e).process = some (ProcState.exited kc) ∧
    (monitorStepExec kc now e).endTime = some now := by
  unfold monitorStepExec
  rw [halive]
  simp only [hrun, hover, and_self, if_pos, true_and]
  unfold stop_script
  rw [halive]
  simp

/-- After one monitor step no execution is RUNNING past its timeout. -/
theorem monitorStepNoLateRunning (kc now : Int) (e : Execution) :
    (monitorStepExec kc now e).status = ScriptStatus.running →
      now - (monitorStepExec kc now e).startTime ≤ (monitorStepExec kc now e).timeoutSec := by
  intro hrun
  unfold monitorStepExec at hrun ⊢
  rcases hp : e.process with _ | p
  · simp only [hp] at hrun ⊢
    by_cases hc : e.status = ScriptStatus.running ∧ now - e.startTime > e.timeoutSec
    · rw [if_pos hc] at hrun; simp at hrun
    · rw [if_neg hc] at hrun ⊢
      have h2 := not_and.mp hc hrun
      omega
  · rcases p with _ | code
    · simp only [hp] at hrun ⊢
      by_cases hc : e.status = ScriptStatus.running ∧ now - e.startTime > e.timeoutSec
      · rw [if_pos hc] at hrun; simp at hrun
      · rw [if_neg hc] at hrun ⊢
        have h2 := not_and.mp hc hrun
        omega
    · simp only [hp] at hrun
      split at hrun <;> simp_all

/-- C2: the default script timeout is 300 seconds; in one pass of the polling
monitor every RUNNING execution past its timeout with a live process is
stopped (its process exits) and its status is set to TIMEOUT; after the pass
no execution is RUNNING with runtime above its timeout, hence at any moment at
most one polling interval `δ` after a pass, a RUNNING execution's runtime is
at most its timeout plus `δ`. -/
theorem c2_monitor_timeout (kc now : Int) (execs : List Execution) :
    defaultScriptTimeout = 300 ∧
    (∀ e ∈ execs, e.status = ScriptStatus.running → now - e.startTime > e.timeoutSec →
        e.process = some ProcState.alive →
          (monitorStepExec kc now e).status = ScriptStatus.timeout ∧
          (monitorStepExec kc now e).process = some (ProcState.exited kc)) ∧
    (∀ e ∈ monitorPass kc now execs,
        e.status = ScriptStatus.running → now - e.startTime ≤ e.timeoutSec) ∧
    (∀ e ∈ monitorPass kc now execs, ∀ u δ : Int, u - now ≤ δ →
        e.status = ScriptStatus.running → u - e.startTime ≤ e.timeoutSec + δ) := by
  have hpass : ∀ e ∈ monitorPass kc now execs,
      e.status = ScriptStatus.running → now - e.startTime ≤ e.timeoutSec := by
    intro e he hrun
    unfold monitorPass at he
    obtain ⟨he', -⟩ := List.mem_filter.mp he
    obtain ⟨e₀, -, rfl⟩ := List.mem_map.mp he'
    exact monitorStepNoLateRunning kc now e₀ hrun
  refine ⟨rfl, ?_, hpass, ?_⟩
  · intro e _ hrun hover halive
    obtain ⟨h1, h2, -⟩ := monitorTimeoutTransition kc now e hrun hover halive
    exact ⟨h1, h2⟩
  · intro e he u δ hδ hrun
    have := hpass e he hrun
    omega

/-- Invariant of the header-detection fold: starting from accumulator `a` on a
strictly increasing list of candidate rows, the fold returns the earliest row
achieving the maximal count, keeping `a` when no row beats `a.2`. -/
theorem headerFoldInv (cnt : Nat → Nat) :
    ∀ (l : List Nat) (a : Nat × Nat),
      List.Pairwise (· < ·) l → (∀ r ∈ l, a.1 ≤ r) →
      a.2 ≤ (l.foldl (headerStep cnt) a).2 ∧
      (∀ r ∈ l, cnt r ≤ (l.foldl (headerStep cnt) a).2) ∧
      ((l.foldl (headerStep cnt) a) = a ∨
        ((l.foldl (headerStep cnt) a).1 ∈ l ∧
          cnt (l.foldl (headerStep cnt) a).1 = (l.foldl (headerStep cnt) a).2)) ∧
      (a.1 < (l.foldl (headerStep cnt) a).1 → a.2 < (l.foldl (headerStep cnt) a).2) ∧
      (∀ r ∈ l, r < (l.foldl (headerStep cnt) a).1 →
        cnt r < (l.foldl (headerStep cnt) a).2) ∧
      ((∀ r ∈ l, cnt r ≤ a.2) → (l.foldl (headerStep cnt) a) = a) := by
  intro l
  induction l with
  | nil =>
    intro a _ _
    simp
  | cons r0 rest ih =>
    intro a hp hlb
    rw [List.pairwise_cons] at hp
    obtain ⟨hr0, hprest⟩ := hp
    rw [List.foldl_cons]
    by_cases hgt : cnt r0 > a.2
    · have hstep : headerStep cnt a r0 = (r0, cnt r0) := by simp [headerStep, hgt]
      rw [hstep]
      have hlb' : ∀ r ∈ rest, (r0, cnt r0).1 ≤ r := fun r hr => Nat.le_of_lt (hr0 r hr)
      obtain ⟨i1, i2, i3, i4, i5, i6⟩ := ih (r0, cnt r0) hprest hlb'
      refine ⟨?_, ?_, ?_, ?_, ?_, ?_⟩
      · exact Nat.le_trans (Nat.le_of_lt hgt) i1
      · intro r hr
        rcases List.mem_cons.mp hr with rfl | hr'
        · exact i1
        · exact i2 r hr'
      · rcases i3 with h | h
        · right
          rw [h]
          exact ⟨List.mem_cons_self r0 rest, rfl⟩
        · exact Or.inr ⟨List.mem_cons_of_mem r0 h.1, h.2⟩
      · intro _
        exact Nat.lt_of_lt_of_le hgt i1
      · intro r hr hlt
        rcases List.mem_cons.mp hr with rfl | hr'
        · exact i4 hlt
        · exact i5 r hr' hlt
      · intro hall
        exact absurd (hall r0 (List.mem_cons_self r0 rest)) (Nat.not_le.mpr hgt)
    · have hstep : headerStep cnt a r0 = a := by simp [headerStep, hgt]
      rw [hstep]
      have ha1r0 : a.1 ≤ r0 := hlb r0 (List.mem_cons_self r0 rest)
      have hlb' : ∀ r ∈ rest, a.1 ≤ r :=
        fun r hr => Nat.le_of_lt (Nat.lt_of_le_of_lt ha1r0 (hr0 r hr))
      obtain ⟨i1, i2, i3, i4, i5, i6⟩ := ih a hprest hlb'
      have hngt : cnt r0 ≤ a.2 := Nat.le_of_not_lt hgt
      refine ⟨i1, ?_, ?_, i4, ?_, ?_⟩
      · intro r hr
        rcases List.mem_cons.mp hr with rfl | hr'
        · exact Nat.le_trans hngt i1
        · exact i2 r hr'
      · rcases i3 with h | h
        · exact Or.inl h
        · exact Or.inr ⟨List.mem_cons_of_mem r0 h.1, h.2⟩
      · intro r hr hlt
        rcases List.mem_cons.mp hr with rfl | hr'
        · have ha : a.1 < (rest.foldl (headerStep cnt) a).1 :=
            Nat.lt_of_le_of_lt ha1r0 hlt
          exact Nat.lt_of_le_of_lt hngt (i4 ha)
        · exact i5 r hr' hlt
      · intro hall
        exact i6 (fun r hr => hall r (List.mem_cons_of_mem r0 hr))

/-- Unfolding of a successful `rowRecipient`: the row passed the send-flag
test and has a non-empty parsed cardholder email. -/
theorem rowRecipient_some {s : Sheet} {r : Nat} {rec : Recipient}
    (h : rowRecipient s r = some rec) :
    rec.row = r ∧ sendFlagOk s r = true ∧
    rec.to_email = (parse_emails (s.cell r 8)).1 ∧ rec.to_email ≠ "" := by
  unfold rowRecipient at h
  split at h
  · exact absurd h (by simp)
  · next hflag =>
    by_cases he : (parse_emails (s.cell r 8)).1 = ""
    · simp [he] at h
    · simp only [he, if_neg, ite_false, Option.some.injEq] at h
      subst h
      refine ⟨rfl, ?_, rfl, he⟩
      simpa using hflag

/-- C3: the detected header row is row 1 or one of the candidate rows
`1..min(10, lastRow)`; it maximizes the number of non-empty cells over the
candidates; it is the earliest such maximizer (every earlier candidate has
strictly fewer non-empty cells); when every candidate row is empty the
detection defaults to row 1; and data rows feeding recipients are read only
strictly below the detected header row. -/
theorem c3_header_row_detection (s : Sheet) :
    (detectHeaderRow s = 1 ∨ detectHeaderRow s ∈ headerCandidates s) ∧
    (∀ r ∈ headerCandidates s,
        rowNonEmptyCount s r ≤ rowNonEmptyCount s (detectHeaderRow s)) ∧
    (∀ r ∈ headerCandidates s, r < detectHeaderRow s →
        rowNonEmptyCount s r < rowNonEmptyCount s (detectHeaderRow s)) ∧
    ((∀ r ∈ headerCandidates s, rowNonEmptyCount s r = 0) → detectHeaderRow s = 1) ∧
    (∀ rec ∈ loadRecipients s, detectHeaderRow s < rec.row ∧ rec.row ≤ s.lastRow) := by
  have hp : List.Pairwise (· < ·) (headerCandidates s) := List.pairwise_lt_range' 1 _
  have hlb : ∀ r ∈ headerCandidates s, (1, 0).1 ≤ r := by
    intro r hr
    exact (List.mem_range'_1.mp hr).1
  obtain ⟨i1, i2, i3, i4, i5, i6⟩ :=
    headerFoldInv (rowNonEmptyCount s) (headerCandidates s) (1, 0) hp hlb
  have hdet : detectHeaderRow s
      = ((headerCandidates s).foldl (headerStep (rowNonEmptyCount s)) (1, 0)).1 := rfl
  have hmax : ((headerCandidates s).foldl (headerStep (rowNonEmptyCount s)) (1, 0)).2
      ≤ rowNonEmptyCount s (detectHeaderRow s) := by
    rcases i3 with h | h
    · rw [hdet, h]
      exact Nat.zero_le _
    · rw [hdet, ← h.2]
  refine ⟨?_, ?_, ?_, ?_, ?_⟩
  · rcases i3 with h | h
    · left
      rw [hdet, h]
    · right
      rw [hdet]
      exact h.1
  · intro r hr
    exact Nat.le_trans (i2 r hr) hmax
  · intro r hr hlt
    exact Nat.lt_of_lt_of_le (i5 r hr (by rw [hdet] at hlt; exact hlt)) hmax
  · intro hall
    have := i6 (fun r hr => Nat.le_of_eq (hall r hr))
    rw [hdet, this]
  · intro rec hrec
    obtain ⟨r, hrl, hsome⟩ := List.mem_filterMap.mp hrec
    obtain ⟨hrow, -, -, -⟩ := rowRecipient_some hsome
    have hmem := List.mem_range'_1.mp hrl
    rw [hrow]
    omega

/-- Witness for C3: on an all-empty worksheet the detection defaults to row 1. -/
theorem c3_header_row_detection_witness : detectHeaderRow sheetEmpty = 1 := by
  exact (c3_header_row_detection sheetEmpty).2.2.2.1 (by decide)

/-- C9: every loaded recipient has a non-empty To address, obtained as the
first email parsed from its row's column 8, and its row passed the
trimmed-upper-case-"X" send-flag test on column 1; a row failing either test
contributes no recipient. -/
theorem c9_recipient_invariant (s : Sheet) :
    (∀ rec ∈ loadRecipients s,
        rec.to_email ≠ "" ∧ sendFlagOk s rec.row = true ∧
        rec.to_email = (parse_emails (s.cell rec.row 8)).1) ∧
    (∀ r : Nat, (sendFlagOk s r = false ∨ (parse_emails (s.cell r 8)).1 = "") →
        ∀ rec ∈ loadRecipients s, rec.row ≠ r) := by
  constructor
  · intro rec hrec
    obtain ⟨r, hrl, hsome⟩ := List.mem_filterMap.mp hrec
    obtain ⟨hrow, hflag, hmail, hne⟩ := rowRecipient_some hsome
    refine ⟨hne, ?_, ?_⟩
    · rw [hrow]
      exact hflag
    · rw [hrow]
      exact hmail
  · intro r hbad rec hrec hrowr
    obtain ⟨r', hrl, hsome⟩ := List.mem_filterMap.mp hrec
    obtain ⟨hrow, hflag, hmail, hne⟩ := rowRecipient_some hsome
    have hrr : r' = r := by rw [← hrow, hrowr]
    rcases hbad with hb | hb
    · rw [hrr] at hflag
      rw [hflag] at hb
      simp at hb
    · rw [hrr] at hmail
      rw [hb] at hmail
      exact hne hmail

/-- Witness for C9: on the concrete sheet, row 4 (whose send flag is empty)
contributes no recipient. -/
theorem c9_recipient_invariant_witness :
    (⟨4, "lost@gov.im"⟩ : Recipient) ∉ loadRecipients sheetW := by
  intro h
  exact (c9_recipient_invariant sheetW).2 4 (Or.inl (by decide))
    ⟨4, "lost@gov.im"⟩ h rfl

/-- Witness for C2: a concrete over-time running execution is timed out by a
monitor pass. -/
theorem c2_monitor_timeout_witness :
    (monitorStepExec (-15) 1000
        { status := ScriptStatus.running, startTime := 0, timeoutSec := 300,
          endTime := none, exitCode := none,
          process := some ProcState.alive }).status = ScriptStatus.timeout := by
  have h := (c2_monitor_timeout (-15) 1000
      [{ status := ScriptStatus.running, startTime := 0, timeoutSec := 300,
         endTime := none, exitCode := none, process := some ProcState.alive }]).2.1
  exact (h _ (by simp) rfl (by decide) rfl).1

/-- Characters of a brace-free list are neither `{` nor `}`. -/
theorem braceFree_mem {l : List Char} (h : braceFree l = true) :
    ∀ c ∈ l, c ≠ '{' ∧ c ≠ '}' := by
  intro c hc
  have h2 := List.all_eq_true.mp h c hc
  simp only [Bool.and_eq_true, bne_iff_ne, ne_eq] at h2
  exact h2

/-- A list is a prefix (as `isPrefixOf`) of itself followed by anything. -/
theorem isPrefixOf_self_append (xs ys : List Char) : xs.isPrefixOf (xs ++ ys) = true := by
  induction xs with
  | nil => simp [List.isPrefixOf]
  | cons x xt ih => simp [List.isPrefixOf, ih]

/-- Mismatching heads refute `isPrefixOf`. -/
theorem isPrefixOf_cons_ne {p c : Char} (pt cs : List Char) (h : p ≠ c) :
    ((p :: pt).isPrefixOf (c :: cs)) = false := by
  simp [List.isPrefixOf, h]

/-- Scanning for a pattern headed by `p` can skip any block without `p`. -/
theorem containsSub_skip {p : Char} (pt : List Char) :
    ∀ (l t : List Char), (∀ c ∈ l, c ≠ p) →
      containsSub (p :: pt) (l ++ t) = containsSub (p :: pt) t := by
  intro l
  induction l with
  | nil => intro t _; rfl
  | cons c cs ih =>
    intro t hl
    have hc : p ≠ c := fun h => (hl c (List.mem_cons_self c cs)) h.symm
    rw [List.cons_append]
    show (((p :: pt).isPrefixOf (c :: (cs ++ t))) || containsSub (p :: pt) (cs ++ t)) = _
    rw [isPrefixOf_cons_ne _ _ hc, ih t (fun x hx => hl x (List.mem_cons_of_mem c hx))]
    simp

/-- A `{`-headed pattern does not occur in a text without `{`. -/
theorem containsSub_no_brace {pt l : List Char} (h : ∀ c ∈ l, c ≠ '{') :
    containsSub ('{' :: pt) l = false := by
  have h2 := containsSub_skip pt l [] h
  rw [List.append_nil] at h2
  rw [h2]
  rfl

/-- The body of token `{m}` is not a prefix of the body-and-rest of a
different token `{n}` when both names are `}`-free. -/
theorem not_isPrefixOf_token :
    ∀ (m n post : List Char), (∀ c ∈ m, c ≠ '}') → (∀ c ∈ n, c ≠ '}') → m ≠ n →
      ((m ++ ['}']).isPrefixOf (n ++ '}' :: post)) = false := by
  intro m
  induction m with
  | nil =>
    intro n post _ hn hne
    cases n with
    | nil => exact absurd rfl hne
    | cons b n' =>
      have hb : b ≠ '}' := hn b (List.mem_cons_self b n')
      rw [List.nil_append, List.cons_append]
      exact isPrefixOf_cons_ne _ _ (fun h => hb h.symm)
  | cons a m' ih =>
    intro n post hm hn hne
    cases n with
    | nil =>
      have ha : a ≠ '}' := hm a (List.mem_cons_self a m')
      rw [List.cons_append, List.nil_append]
      exact isPrefixOf_cons_ne _ _ ha
    | cons b n' =>
      rw [List.cons_append, List.cons_append]
      by_cases hab : a = b
      · subst hab
        show ((a == a) && ((m' ++ ['}']).isPrefixOf (n' ++ '}' :: post))) = false
        rw [ih n' post (fun c hc => hm c (List.mem_cons_of_mem a hc))
            (fun c hc => hn c (List.mem_cons_of_mem a hc))
            (fun h => hne (by rw [h]))]
        simp
      · exact isPrefixOf_cons_ne _ _ hab

/-- Token `{m}` does not occur in `pre{n}post` when `m ≠ n` and the pieces
carry no stray braces. -/
theorem containsSub_token_ne (m n pre post : List Char)
    (hpre : ∀ c ∈ pre, c ≠ '{') (hm : ∀ c ∈ m, c ≠ '}')
    (hn : ∀ c ∈ n, c ≠ '{' ∧ c ≠ '}') (hpost : ∀ c ∈ post, c ≠ '{')
    (hne : m ≠ n) :
    containsSub ('{' :: (m ++ ['}'])) (pre ++ '{' :: (n ++ '}' :: post)) = false := by
  rw [containsSub_skip _ pre _ hpre]
  show ((('{' :: (m ++ ['}'])).isPrefixOf ('{' :: (n ++ '}' :: post)))
      || containsSub ('{' :: (m ++ ['}'])) (n ++ '}' :: post)) = false
  have h1 : (('{' :: (m ++ ['}'])).isPrefixOf ('{' :: (n ++ '}' :: post))) = false := by
    show (('{' == '{') && ((m ++ ['}']).isPrefixOf (n ++ '}' :: post))) = false
    rw [not_isPrefixOf_token m n post hm (fun c hc => (hn c hc).2) hne]
    simp
  have h2 : containsSub ('{' :: (m ++ ['}'])) (n ++ '}' :: post) = false := by
    rw [containsSub_skip _ n _ (fun c hc => (hn c hc).1)]
    show ((('{' :: (m ++ ['}'])).isPrefixOf ('}' :: post))
        || containsSub ('{' :: (m ++ ['}'])) post) = false
    rw [isPrefixOf_cons_ne _ _ (by decide : '{' ≠ '}'), containsSub_no_brace hpost]
    rfl
  rw [h1, h2]
  rfl

/-- `replace` is the identity when the pattern does not occur. -/
theorem pyReplace_no_occur (pat rep : List Char) :
    ∀ l, containsSub pat l = false → pyReplace pat rep l = l := by
  intro l
  induction l with
  | nil => intro _; simp [pyReplace]
  | cons c cs ih =>
    intro h
    have hor : (pat.isPrefixOf (c :: cs) || containsSub pat cs) = false := h
    rw [Bool.or_eq_false_iff] at hor
    obtain ⟨h1, h2⟩ := hor
    simp only [pyReplace]
    rw [if_neg]
    · rw [ih h2]
    · intro hc
      rw [h1] at hc
      simp at hc

/-- `replace` substitutes a token occurrence after a `{`-free block and goes
on with the remainder. -/
theorem pyReplace_token_split (n rep : List Char) :
    ∀ (pre post : List Char), (∀ c ∈ pre, c ≠ '{') →
      pyReplace ('{' :: (n ++ ['}'])) rep (pre ++ '{' :: (n ++ '}' :: post))
        = pre ++ rep ++ pyReplace ('{' :: (n ++ ['}'])) rep post := by
  intro pre
  induction pre with
  | nil =>
    intro post _
    rw [List.nil_append]
    simp only [pyReplace]
    rw [if_pos]
    · have hlen : ('{' :: (n ++ ['}'])).length - 1 = (n ++ ['}']).length := by simp
      have hshape : n ++ '}' :: post = (n ++ ['}']) ++ post := List.append_cons n '}' post
      have hdrop : (n ++ '}' :: post).drop (('{' :: (n ++ ['}'])).length - 1) = post := by
        rw [hlen, hshape]
        exact List.drop_left _ _
      rw [hdrop]
      simp
    · refine ⟨by simp, ?_⟩
      have hshape : '{' :: (n ++ '}' :: post) = ('{' :: (n ++ ['}'])) ++ post := by
        simp
      rw [hshape]
      exact isPrefixOf_self_append _ _
  | cons c pre' ih =>
    intro post hpre
    have hc : c ≠ '{' := hpre c (List.mem_cons_self c pre')
    rw [List.cons_append]
    simp only [pyReplace]
    rw [if_neg]
    · rw [ih post (fun x hx => hpre x (List.mem_cons_of_mem c hx))]
      simp
    · intro hcond
      have h2 := hcond.2
      rw [isPrefixOf_cons_ne _ _ (fun h => hc h.symm)] at h2
      simp at h2

/-- Equal character data means equal strings. -/
theorem data_injective {a b : String} (h : a.data = b.data) : a = b :=
  congrArg String.mk h

/-- String-level: `replace` is the identity when the pattern does not occur. -/
theorem pyReplaceS_no_occur {s pat rep : String}
    (h : containsSub pat.data s.data = false) : pyReplaceS s pat rep = s := by
  unfold pyReplaceS
  rw [pyReplace_no_occur pat.data rep.data s.data h]

/-- Character data of the `{name}` pattern. -/
theorem tokenStr_data (n : String) : (tokenStr n).data = '{' :: (n.data ++ ['}']) := by
  simp [tokenStr, String.data_append]

/-- Character data of a text with one embedded token. -/
theorem text_shape (pre t post : String) :
    (pre ++ "\x7b" ++ t ++ "\x7d" ++ post).data
      = pre.data ++ '{' :: (t.data ++ '}' :: post.data) := by
  simp [String.data_append]

/-- A fold of replacements whose patterns never occur leaves the text alone. -/
theorem foldVars_unchanged :
    ∀ (vs : List (String × String)) (text : String),
      (∀ kv ∈ vs, containsSub (tokenStr kv.1).data text.data = false) →
      vs.foldl varStep text = text := by
  intro vs
  induction vs with
  | nil => intro text _; rfl
  | cons kv vs' ih =>
    intro text h
    rw [List.foldl_cons]
    have h1 : varStep text kv = text :=
      pyReplaceS_no_occur (h kv (List.mem_cons_self kv vs'))
    rw [h1]
    exact ih text (fun kv' hkv' => h kv' (List.mem_cons_of_mem kv hkv'))

/-- One `varStep` on `pre{t}post` with matching name substitutes the value. -/
theorem varStep_replace (pre t post v : String)
    (hpre : ∀ c ∈ pre.data, c ≠ '{') (hpost : ∀ c ∈ post.data, c ≠ '{') :
    varStep (pre ++ "\x7b" ++ t ++ "\x7d" ++ post) (t, v) = pre ++ v ++ post := by
  unfold varStep pyReplaceS
  have key : pyReplace (tokenStr t).data v.data (pre ++ "\x7b" ++ t ++ "\x7d" ++ post).data
      = (pre ++ v ++ post).data := by
    rw [tokenStr_data, text_shape]
    rw [pyReplace_token_split t.data v.data pre.data post.data hpre]
    rw [pyReplace_no_occur _ _ post.data (containsSub_no_brace hpost)]
    simp [String.data_append]
  rw [key]

/-- Brace-freedom distributes over append. -/
theorem braceFree_append (a b : List Char) :
    braceFree (a ++ b) = (braceFree a && braceFree b) := by
  simp [braceFree, List.all_append]

/-- Folding the variables dict over `pre{t}post`: entries before the first
entry named `t` do not fire, the `t` entry substitutes its value, and the
remaining entries find no brace to match. -/
theorem foldVars_replace (pre t post v : String) (vs₁ vs₂ : List (String × String))
    (hpre : braceFree pre.data = true) (ht : braceFree t.data = true)
    (hpost : braceFree post.data = true) (hv : braceFree v.data = true)
    (hnames : ∀ kv ∈ vs₁, braceFree kv.1.data = true ∧ kv.1 ≠ t) :
    (vs₁ ++ (t, v) :: vs₂).foldl varStep (pre ++ "\x7b" ++ t ++ "\x7d" ++ post)
      = pre ++ v ++ post := by
  rw [List.foldl_append]
  rw [foldVars_unchanged vs₁ _ ?hno]
  case hno =>
    intro kv hkv
    rw [tokenStr_data, text_shape]
    exact containsSub_token_ne kv.1.data t.data pre.data post.data
      (fun c hc => (braceFree_mem hpre c hc).1)
      (fun c hc => (braceFree_mem (hnames kv hkv).1 c hc).2)
      (braceFree_mem ht)
      (fun c hc => (braceFree_mem hpost c hc).1)
      (fun hd => (hnames kv hkv).2 (data_injective hd))
  rw [List.foldl_cons]
  rw [varStep_replace pre t post v (fun c hc => (braceFree_mem hpre c hc).1)
      (fun c hc => (braceFree_mem hpost c hc).1)]
  apply foldVars_unchanged
  intro kv hkv
  rw [tokenStr_data]
  apply containsSub_no_brace
  intro c hc
  have hall : braceFree (pre ++ v ++ post).data = true := by
    have hd : (pre ++ v ++ post).data = pre.data ++ v.data ++ post.data := by
      simp [String.data_append]
    rw [hd, braceFree_append, braceFree_append]
    simp [hpre, hv, hpost]
  exact (braceFree_mem hall c hc).1

/-- A `{`-headed pattern steps over a `{`-free block unchanged. -/
theorem pyReplace_skip_block (pat rep : List Char) :
    ∀ (s r : List Char), (∀ c ∈ s, c ≠ '{') →
      pyReplace ('{' :: pat) rep (s ++ r) = s ++ pyReplace ('{' :: pat) rep r := by
  intro s
  induction s with
  | nil => intro r _; rfl
  | cons c cs ih =>
    intro r hs
    have hc : c ≠ '{' := hs c (List.mem_cons_self c cs)
    rw [List.cons_append]
    simp only [pyReplace]
    rw [if_neg]
    · rw [ih r (fun x hx => hs x (List.mem_cons_of_mem c hx))]
      simp
    · intro hcond
      have h2 := hcond.2
      rw [isPrefixOf_cons_ne _ _ (fun h => hc h.symm)] at h2
      simp at h2

/-- A token with a different brace-free name at the head is stepped over. -/
theorem pyReplace_skip_token (n m rep post : List Char)
    (hm : ∀ c ∈ m, c ≠ '{' ∧ c ≠ '}') (hn : ∀ c ∈ n, c ≠ '}') (hne : n ≠ m) :
    pyReplace ('{' :: (n ++ ['}'])) rep ('{' :: (m ++ '}' :: post))
      = '{' :: (m ++ '}' :: pyReplace ('{' :: (n ++ ['}'])) rep post) := by
  simp only [pyReplace]
  rw [if_neg]
  · have hblk := pyReplace_skip_block (n ++ ['}']) rep (m ++ ['}']) post ?hfree
    case hfree =>
      intro c hc
      rcases List.mem_append.mp hc with h | h
      · exact (hm c h).1
      · simp only [List.mem_singleton] at h
        subst h
        decide
    rw [List.append_cons m '}' post, hblk]
    simp
  · intro hcond
    have h2 := hcond.2
    have h2b : (('{' == '{') && ((n ++ ['}']).isPrefixOf (m ++ '}' :: post))) = true := h2
    rw [not_isPrefixOf_token n m post hn (fun c hc => (hm c hc).2) hne] at h2b
    simp at h2b

/-- Replacing the token `\x7bn\x7d` in a rendered well-formed template
substitutes every occurrence of the placeholder `n` at once. -/
theorem pyReplace_renderT (n v : String)
    (hn : braceFree n.data = true) (hv : braceFree v.data = true) :
    ∀ items : List TItem, (∀ it ∈ items, itemWF it = true) →
      pyReplace ('{' :: (n.data ++ ['}'])) v.data (renderT items)
        = renderT (substPh n v items) := by
  intro items
  induction items with
  | nil => intro _; simp [pyReplace, renderT, substPh]
  | cons a its ih =>
    intro hwf
    have hits : ∀ x ∈ its, itemWF x = true :=
      fun x hx => hwf x (List.mem_cons_of_mem a hx)
    cases a with
    | lit s =>
      have hs : braceFree s.data = true := hwf (TItem.lit s) (List.mem_cons_self _ _)
      show pyReplace ('{' :: (n.data ++ ['}'])) v.data (s.data ++ renderT its)
          = s.data ++ renderT (substPh n v its)
      rw [pyReplace_skip_block (n.data ++ ['}']) v.data s.data (renderT its)
          (fun c hc => (braceFree_mem hs c hc).1), ih hits]
    | ph m =>
      have hmbf : braceFree m.data = true := hwf (TItem.ph m) (List.mem_cons_self _ _)
      by_cases hmn : m = n
      · subst hmn
        have hsplit := pyReplace_token_split m.data v.data [] (renderT its)
            (fun c hc => absurd hc (List.not_mem_nil c))
        simp only [List.nil_append] at hsplit
        show pyReplace ('{' :: (m.data ++ ['}'])) v.data
            ('{' :: (m.data ++ '}' :: renderT its))
          = renderT (substPh m v (TItem.ph m :: its))
        rw [hsplit, ih hits]
        have hsub : substPh m v (TItem.ph m :: its) = TItem.lit v :: substPh m v its := by
          simp [substPh]
        rw [hsub]
        rfl
      · have hskip := pyReplace_skip_token n.data m.data v.data (renderT its)
            (braceFree_mem hmbf)
            (fun c hc => (braceFree_mem hn c hc).2)
            (fun h => hmn (data_injective h).symm)
        show pyReplace ('{' :: (n.data ++ ['}'])) v.data
            ('{' :: (m.data ++ '}' :: renderT its))
          = renderT (substPh n v (TItem.ph m :: its))
        rw [hskip, ih hits]
        have hsub : substPh n v (TItem.ph m :: its) = TItem.ph m :: substPh n v its := by
          simp [substPh, hmn]
        rw [hsub]
        rfl

/-- Substituting a brace-free value preserves template well-formedness. -/
theorem substPh_WF (n v : String) (hv : braceFree v.data = true) :
    ∀ items : List TItem, (∀ it ∈ items, itemWF it = true) →
      ∀ it ∈ substPh n v items, itemWF it = true := by
  intro items
  induction items with
  | nil => intro _ it hit; exact absurd hit (List.not_mem_nil it)
  | cons a its ih =>
    intro hwf it hit
    have hits : ∀ x ∈ its, itemWF x = true :=
      fun x hx => hwf x (List.mem_cons_of_mem a hx)
    cases a with
    | lit s =>
      rcases List.mem_cons.mp hit with h | h
      · rw [h]
        exact hwf (TItem.lit s) (List.mem_cons_self _ _)
      · exact ih hits it h
    | ph m =>
      rcases List.mem_cons.mp hit with h | h
      · rw [h]
        by_cases hmn : m = n
        · rw [if_pos hmn]
          exact hv
        · rw [if_neg hmn]
          exact hwf (TItem.ph m) (List.mem_cons_self _ _)
      · exact ih hits it h

/-- With no bindings every placeholder resolves to its own token. -/
theorem renderWith_nil_eq :
    ∀ items : List TItem, renderWith [] items = renderT items := by
  intro items
  induction items with
  | nil => rfl
  | cons a its ih =>
    cases a with
    | lit s =>
      show s.data ++ renderWith [] its = s.data ++ renderT its
      rw [ih]
    | ph m =>
      show resolveIn [] m ++ renderWith [] its = '{' :: (m.data ++ '}' :: renderT its)
      rw [ih]
      show ('{' :: (m.data ++ ['}'])) ++ renderT its = '{' :: (m.data ++ '}' :: renderT its)
      simp

/-- Resolving after substituting placeholder `k` equals resolving with the
binding `(k, v)` put first. -/
theorem renderWith_substPh (k v : String) (rest : List (String × String)) :
    ∀ items : List TItem,
      renderWith rest (substPh k v items) = renderWith ((k, v) :: rest) items := by
  intro items
  induction items with
  | nil => rfl
  | cons a its ih =>
    cases a with
    | lit s =>
      show s.data ++ renderWith rest (substPh k v its)
          = s.data ++ renderWith ((k, v) :: rest) its
      rw [ih]
    | ph m =>
      by_cases hmk : m = k
      · have hsub : substPh k v (TItem.ph m :: its) = TItem.lit v :: substPh k v its := by
          simp [substPh, hmk]
        rw [hsub]
        show v.data ++ renderWith rest (substPh k v its)
            = resolveIn ((k, v) :: rest) m ++ renderWith ((k, v) :: rest) its
        rw [ih]
        have hfv : firstVal m ((k, v) :: rest) = some v := by
          show (if k = m then some v else firstVal m rest) = some v
          rw [if_pos hmk.symm]
        have hres : resolveIn ((k, v) :: rest) m = v.data := by
          unfold resolveIn
          rw [hfv]
          rfl
        rw [hres]
      · have hkm : ¬ (k = m) := fun h => hmk h.symm
        have hsub : substPh k v (TItem.ph m :: its) = TItem.ph m :: substPh k v its := by
          simp [substPh, hmk]
        rw [hsub]
        show resolveIn rest m ++ renderWith rest (substPh k v its)
            = resolveIn ((k, v) :: rest) m ++ renderWith ((k, v) :: rest) its
        rw [ih]
        have hfv : firstVal m ((k, v) :: rest) = firstVal m rest := by
          show (if k = m then some v else firstVal m rest) = firstVal m rest
          rw [if_neg hkm]
        have hres : resolveIn ((k, v) :: rest) m = resolveIn rest m := by
          unfold resolveIn
          rw [hfv]
        rw [hres]

/-- Folding `varStep` over a pair list on a rendered template resolves every
placeholder through the pairs, first binding first. -/
theorem foldVars_renderT :
    ∀ (pairs : List (String × String)) (items : List TItem),
      (∀ it ∈ items, itemWF it = true) →
      (∀ kv ∈ pairs, braceFree kv.1.data = true ∧ braceFree kv.2.data = true) →
      (pairs.foldl varStep (String.mk (renderT items))).data = renderWith pairs items := by
  intro pairs
  induction pairs with
  | nil =>
    intro items _ _
    rw [List.foldl_nil, renderWith_nil_eq]
  | cons kv rest ih =>
    intro items hitems hpairs
    have hkv := hpairs kv (List.mem_cons_self kv rest)
    have hrest : ∀ x ∈ rest, braceFree x.1.data = true ∧ braceFree x.2.data = true :=
      fun x hx => hpairs x (List.mem_cons_of_mem kv hx)
    have hdata : (varStep (String.mk (renderT items)) kv).data
        = renderT (substPh kv.1 kv.2 items) := by
      show pyReplace (tokenStr kv.1).data kv.2.data (renderT items)
          = renderT (substPh kv.1 kv.2 items)
      rw [tokenStr_data]
      exact pyReplace_renderT kv.1 kv.2 hkv.1 hkv.2 items hitems
    have hstep : varStep (String.mk (renderT items)) kv
        = String.mk (renderT (substPh kv.1 kv.2 items)) := data_injective hdata
    rw [List.foldl_cons, hstep,
        ih (substPh kv.1 kv.2 items) (substPh_WF kv.1 kv.2 hkv.2 items hitems) hrest,
        renderWith_substPh kv.1 kv.2 rest items]

/-- First-binding lookup over an append when the left part has no binding. -/
theorem firstVal_append_none (n : String) :
    ∀ (a b : List (String × String)), firstVal n a = none →
      firstVal n (a ++ b) = firstVal n b := by
  intro a
  induction a with
  | nil => intro b _; rfl
  | cons kv a2 ih =>
    intro b h
    have h2 : (if kv.1 = n then some kv.2 else firstVal n a2) = none := h
    by_cases hk : kv.1 = n
    · rw [if_pos hk] at h2
      exact Option.noConfusion h2
    · rw [if_neg hk] at h2
      rw [List.cons_append]
      show (if kv.1 = n then some kv.2 else firstVal n (a2 ++ b)) = firstVal n b
      rw [if_neg hk]
      exact ih b h2

/-- First-binding lookup over an append when the left part binds the name. -/
theorem firstVal_append_some (n v : String) :
    ∀ (a b : List (String × String)), firstVal n a = some v →
      firstVal n (a ++ b) = some v := by
  intro a
  induction a with
  | nil => intro b h; exact Option.noConfusion h
  | cons kv a2 ih =>
    intro b h
    have h2 : (if kv.1 = n then some kv.2 else firstVal n a2) = some v := h
    rw [List.cons_append]
    show (if kv.1 = n then some kv.2 else firstVal n (a2 ++ b)) = some v
    by_cases hk : kv.1 = n
    · rw [if_pos hk] at h2
      rw [if_pos hk]
      exact h2
    · rw [if_neg hk] at h2
      rw [if_neg hk]
      exact ih b h2

/-- Every binding of the common-variables dict is brace-free when the current
date/time strings are. -/
theorem braceFree_commonVars (nv : NowVars)
    (hnv : braceFree nv.today.data = true ∧ braceFree nv.full_date.data = true
      ∧ braceFree nv.time.data = true) :
    ∀ kv ∈ commonVars nv, braceFree kv.1.data = true ∧ braceFree kv.2.data = true := by
  intro kv hkv
  simp only [commonVars, List.mem_cons, List.not_mem_nil, or_false] at hkv
  rcases hkv with rfl | rfl | rfl | rfl
  · exact ⟨(by decide : braceFree ("today" : String).data = true), hnv.1⟩
  · exact ⟨(by decide : braceFree ("full_date" : String).data = true), hnv.2.1⟩
  · exact ⟨(by decide : braceFree ("time" : String).data = true), hnv.2.2⟩
  · exact ⟨(by decide : braceFree ("organisation" : String).data = true),
      (by decide : braceFree ("Finance Department" : String).data = true)⟩

/-- C5: over an arbitrary template — any alternation of literal segments and
`\x7bname\x7d` placeholders, with any number of (possibly repeated)
placeholders — and any variables dict, `process_variables` replaces every
occurrence of each placeholder by its resolved value: the dict value where
the name is bound in the dict, else the common variables `today`,
`full_date`, `time` and `organisation` (the last always
"Finance Department"), and a token bound in neither set is left unchanged.
Segments, names and values carry no stray braces. -/
theorem c5_process_variables_spec
    (items : List TItem) (vars : List (String × String)) (nv : NowVars)
    (hitems : ∀ it ∈ items, itemWF it = true)
    (hvars : ∀ kv ∈ vars, braceFree kv.1.data = true ∧ braceFree kv.2.data = true)
    (hnv : braceFree nv.today.data = true ∧ braceFree nv.full_date.data = true
      ∧ braceFree nv.time.data = true) :
    (process_variables (String.mk (renderT items)) vars nv).data
        = renderWith (vars ++ commonVars nv) items
      ∧ (∀ n v, firstVal n vars = some v → resolveIn (vars ++ commonVars nv) n = v.data)
      ∧ (∀ n, firstVal n vars = none →
          resolveIn (vars ++ commonVars nv) n = resolveIn (commonVars nv) n)
      ∧ resolveIn (commonVars nv) "today" = nv.today.data
      ∧ resolveIn (commonVars nv) "full_date" = nv.full_date.data
      ∧ resolveIn (commonVars nv) "time" = nv.time.data
      ∧ resolveIn (commonVars nv) "organisation" = ("Finance Department" : String).data
      ∧ ∀ n, firstVal n vars = none →
          n ≠ "today" → n ≠ "full_date" → n ≠ "time" → n ≠ "organisation" →
          resolveIn (vars ++ commonVars nv) n = '{' :: (n.data ++ ['}']) := by
  have hall : ∀ kv ∈ vars ++ commonVars nv,
      braceFree kv.1.data = true ∧ braceFree kv.2.data = true := by
    intro kv hkv
    rcases List.mem_append.mp hkv with h | h
    · exact hvars kv h
    · exact braceFree_commonVars nv hnv kv h
  refine ⟨?_, ?_, ?_, rfl, rfl, rfl, rfl, ?_⟩
  · show ((commonVars nv).foldl varStep
        (vars.foldl varStep (String.mk (renderT items)))).data
      = renderWith (vars ++ commonVars nv) items
    rw [← List.foldl_append]
    exact foldVars_renderT (vars ++ commonVars nv) items hitems hall
  · intro n v h
    unfold resolveIn
    rw [firstVal_append_some n v vars (commonVars nv) h]
    rfl
  · intro n h
    unfold resolveIn
    rw [firstVal_append_none n vars (commonVars nv) h]
  · intro n h h1 h2 h3 h4
    unfold resolveIn
    rw [firstVal_append_none n vars (commonVars nv) h]
    have hc : firstVal n (commonVars nv) = none := by
      show (if ("today" : String) = n then some nv.today
          else if ("full_date" : String) = n then some nv.full_date
          else if ("time" : String) = n then some nv.time
          else if ("organisation" : String) = n then some ("Finance Department" : String)
          else none) = none
      rw [if_neg (fun hh => h1 hh.symm), if_neg (fun hh => h2 hh.symm),
          if_neg (fun hh => h3 hh.symm), if_neg (fun hh => h4 hh.symm)]
    rw [hc]
    rfl

/-- A closing `>` inside a token attempt substitutes the accumulated key. -/
theorem substScan_token (lk : List (String × String)) :
    ∀ (tok rest acc : List Char), ('>' ∉ tok) → ('<' ∉ tok) →
      substScan lk (some acc) (tok ++ '>' :: rest)
        = if acc.reverse ++ tok = [] then '<' :: '>' :: substScan lk none rest
          else
            (dictGetD lk (pyLower (pyStripS (String.mk (acc.reverse ++ tok)))) "").data
              ++ substScan lk none rest := by
  intro tok
  induction tok with
  | nil =>
    intro rest acc _ _
    rw [List.nil_append]
    simp only [substScan]
    rw [if_pos trivial]
    cases acc with
    | nil => simp
    | cons a as => simp
  | cons c tok' ih =>
    intro rest acc hgt hlt
    have hc1 : c ≠ '>' := by
      intro h
      subst h
      exact hgt (List.mem_cons_self _ _)
    have hc2 : c ≠ '<' := by
      intro h
      subst h
      exact hlt (List.mem_cons_self _ _)
    rw [List.cons_append]
    simp only [substScan]
    rw [if_neg hc1, if_neg hc2]
    rw [ih rest (c :: acc) (fun hx => hgt (List.mem_cons_of_mem c hx))
        (fun hx => hlt (List.mem_cons_of_mem c hx))]
    have hal : (c :: acc).reverse ++ tok' = acc.reverse ++ (c :: tok') := by
      simp
    rw [hal]

/-- Text without `<` is copied verbatim by the scanner. -/
theorem substScan_no_angle (lk : List (String × String)) :
    ∀ l : List Char, '<' ∉ l → substScan lk none l = l := by
  intro l
  induction l with
  | nil => intro _; rfl
  | cons c cs ih =>
    intro h
    have hc : c ≠ '<' := by
      intro he
      subst he
      exact h (List.mem_cons_self _ _)
    simp only [substScan]
    rw [if_neg hc, ih (fun hx => h (List.mem_cons_of_mem c hx))]

/-- The scanner copies a `<`-free block, substitutes a well-formed `<tok>`
and continues on the remainder. -/
theorem substScan_split (lk : List (String × String)) (tok rest : List Char)
    (htok : tok ≠ []) (h1 : '<' ∉ tok) (h2 : '>' ∉ tok) :
    ∀ pre : List Char, '<' ∉ pre →
      substScan lk none (pre ++ '<' :: (tok ++ '>' :: rest))
        = pre ++ ((dictGetD lk (pyLower (pyStripS (String.mk tok))) "").data
            ++ substScan lk none rest) := by
  intro pre
  induction pre with
  | nil =>
    intro _
    rw [List.nil_append]
    simp only [substScan]
    rw [if_pos trivial]
    rw [substScan_token lk tok rest [] h2 h1]
    rw [if_neg (by simp [htok])]
    simp
  | cons c pre' ih =>
    intro hpre
    have hc : c ≠ '<' := by
      intro he
      subst he
      exact hpre (List.mem_cons_self _ _)
    rw [List.cons_append]
    simp only [substScan]
    rw [if_neg hc, ih (fun hx => hpre (List.mem_cons_of_mem c hx))]
    rfl

/-- Character data of a text with one embedded `<tok>` placeholder. -/
theorem text_shape_angle (pre t post : String) :
    (pre ++ "<" ++ t ++ ">" ++ post).data
      = pre.data ++ '<' :: (t.data ++ '>' :: post.data) := by
  simp [String.data_append]

/-- `setdefault` makes its key present. -/
theorem dictSetdefault_self (d : List (String × String)) (k v : String) :
    (dictGet? (dictSetdefault d k v) k).isSome = true := by
  unfold dictSetdefault
  by_cases h : (dictGet? d k).isSome
  · rw [if_pos h]
    exact h
  · rw [if_neg h]
    unfold dictGet? at h ⊢
    rw [List.find?_append]
    cases hf : d.find? (fun p => p.1 == k) with
    | some x => rw [hf] at h; simp at h
    | none => simp [List.find?]

/-- `setdefault` keeps every present key present. -/
theorem dictSetdefault_mono (d : List (String × String)) (k v k' : String)
    (h : (dictGet? d k').isSome = true) :
    (dictGet? (dictSetdefault d k v) k').isSome = true := by
  unfold dictSetdefault
  by_cases hp : (dictGet? d k).isSome
  · rw [if_pos hp]
    exact h
  · rw [if_neg hp]
    unfold dictGet? at h ⊢
    rw [List.find?_append]
    cases hf : d.find? (fun p => p.1 == k') with
    | none => rw [hf] at h; simp at h
    | some x => simp

/-- The name-split stage keeps every present key present. -/
theorem lookupNameSplit_mono (d : List (String × String)) (k : String)
    (h : (dictGet? d k).isSome = true) :
    (dictGet? (lookupNameSplit d) k).isSome = true := by
  unfold lookupNameSplit
  split
  · split
    · exact dictSetdefault_mono _ _ _ _ (dictSetdefault_mono _ _ _ _ h)
    · exact h
  · exact h

/-- The card stage keeps every present key present. -/
theorem lookupCard_mono (d : List (String × String)) (k : String)
    (h : (dictGet? d k).isSome = true) :
    (dictGet? (lookupCard d) k).isSome = true := by
  unfold lookupCard
  split
  · exact dictSetdefault_mono _ _ _ _ h
  · exact h

/-- The date/time stage keeps every present key present. -/
theorem lookupNow_mono (nf : NowFields) (d : List (String × String)) (k : String)
    (h : (dictGet? d k).isSome = true) :
    (dictGet? (lookupNow nf d) k).isSome = true := by
  unfold lookupNow
  exact dictSetdefault_mono _ _ _ _ (dictSetdefault_mono _ _ _ _
    (dictSetdefault_mono _ _ _ _ (dictSetdefault_mono _ _ _ _
      (dictSetdefault_mono _ _ _ _ (dictSetdefault_mono _ _ _ _
        (dictSetdefault_mono _ _ _ _ h))))))

/-- C1: `perform_replacements` returns "" on a `None` or empty template; on a
text with an embedded `<tok>` it copies the `<`-free prefix, replaces the
token by the lookup value of its trimmed lowercased key (the empty string
when the key is absent from both the row map and the derived fields) and
processes the remainder; and the lookup always carries the derived
`full_name` and the generic date fields such as `today` and `year`. -/
theorem c1_perform_replacements_spec
    (row_map : List (String × Option String)) (nf : NowFields)
    (pre tok rest : String)
    (hpre : '<' ∉ pre.data) (htok : tok.data ≠ [])
    (h1 : '<' ∉ tok.data) (h2 : '>' ∉ tok.data) :
    perform_replacements none row_map nf = "" ∧
    perform_replacements (some "") row_map nf = "" ∧
    perform_replacements (some (pre ++ "<" ++ tok ++ ">" ++ rest)) row_map nf
      = pre ++ dictGetD (buildLookup row_map nf) (pyLower (pyStripS tok)) ""
          ++ String.mk (substScan (buildLookup row_map nf) none rest.data) ∧
    (∀ k dflt : String, dictGet? (buildLookup row_map nf) k = none →
        dictGetD (buildLookup row_map nf) k dflt = dflt) ∧
    (dictGet? (buildLookup row_map nf) "full_name").isSome = true ∧
    (dictGet? (buildLookup row_map nf) "today").isSome = true ∧
    (dictGet? (buildLookup row_map nf) "year").isSome = true := by
  refine ⟨rfl, by simp [perform_replacements], ?_, ?_, ?_, ?_, ?_⟩
  · simp only [perform_replacements]
    have hne : ¬(pre ++ "<" ++ tok ++ ">" ++ rest = "") := by
      intro h0
      have hd : (pre ++ "<" ++ tok ++ ">" ++ rest).data = [] := by rw [h0]
      rw [text_shape_angle] at hd
      simp at hd
    rw [if_neg hne]
    have hd : substScan (buildLookup row_map nf) none
        (pre ++ "<" ++ tok ++ ">" ++ rest).data
        = (pre ++ dictGetD (buildLookup row_map nf) (pyLower (pyStripS tok)) ""
            ++ String.mk (substScan (buildLookup row_map nf) none rest.data)).data := by
      rw [text_shape_angle]
      rw [substScan_split (buildLookup row_map nf) tok.data rest.data htok h1 h2
        pre.data hpre]
      simp [String.data_append]
    exact data_injective hd
  · intro k dflt hk
    simp only [dictGetD, hk, Option.getD]
  · exact lookupNow_mono nf _ _ (lookupCard_mono _ _ (lookupNameSplit_mono _ _
      (dictSetdefault_self _ "full_name" _)))
  · unfold buildLookup lookupNow
    exact dictSetdefault_mono _ _ _ _ (dictSetdefault_mono _ _ _ _
      (dictSetdefault_mono _ _ _ _ (dictSetdefault_mono _ _ _ _
        (dictSetdefault_mono _ _ _ _ (dictSetdefault_mono _ _ _ _
          (dictSetdefault_self _ "today" _))))))
  · unfold buildLookup lookupNow
    exact dictSetdefault_mono _ _ _ _ (dictSetdefault_mono _ _ _ _
      (dictSetdefault_self _ "year" _))

/-- Witness for C1: a concrete template over a concrete row map; the
`< First_Name >` token is trimmed, lowercased and resolved from the derived
first name split off the `name` column. -/
theorem c1_perform_replacements_witness :
    perform_replacements (some ("Hi " ++ "<" ++ " First_Name " ++ ">" ++ " bye."))
        [("name", some "Jane Smith"), ("card_number", some "1234 5678 9012 3456")]
        ⟨"07/10/2026", "07 October 2026", "10:00:00", "t0", "2026", "10", "Wednesday"⟩
      = "Hi Jane bye." := by
  have h := (c1_perform_replacements_spec
      [("name", some "Jane Smith"), ("card_number", some "1234 5678 9012 3456")]
      ⟨"07/10/2026", "07 October 2026", "10:00:00", "t0", "2026", "10", "Wednesday"⟩
      "Hi " " First_Name " " bye."
      (by decide) (by decide) (by decide) (by decide)).2.2.1
  rw [h, substScan_no_angle _ _ (by decide)]
  decide

/-- The head of `dropWhile` fails the predicate. -/
theorem head_dropWhile_not (p : Char → Bool) :
    ∀ (l : List Char) (c : Char) (cs : List Char),
      l.dropWhile p = c :: cs → p c = false := by
  intro l
  induction l with
  | nil => intro c cs h; exact absurd h (by simp)
  | cons x xs ih =>
    intro c cs h
    rw [List.dropWhile_cons] at h
    split at h
    · exact ih c cs h
    · next hx =>
      cases h
      exact Bool.eq_false_iff.mpr hx

/-- Every character kept by `takeWhile` satisfies the predicate. -/
theorem all_takeWhile (p : Char → Bool) (l : List Char) :
    (l.takeWhile p).all p = true :=
  List.all_eq_true.mpr (fun c hc => List.mem_takeWhile_imp hc)

/-- A decomposition into an all-`p` block followed by a non-`p`-headed
remainder is exactly the `takeWhile`/`dropWhile` split. -/
theorem digit_split_unique (p : Char → Bool) :
    ∀ (r' cs post : List Char), cs = r' ++ post → r'.all p = true →
      (∀ c cs', post = c :: cs' → p c = false) →
      r' = cs.takeWhile p ∧ post = cs.dropWhile p := by
  intro r'
  induction r' with
  | nil =>
    intro cs post hcs hall hpost
    rw [List.nil_append] at hcs
    subst hcs
    cases cs with
    | nil => exact ⟨rfl, rfl⟩
    | cons c cs' =>
      have hc := hpost c cs' rfl
      constructor
      · rw [List.takeWhile_cons]
        simp [hc]
      · rw [List.dropWhile_cons]
        simp [hc]
  | cons x r'' ih =>
    intro cs post hcs hall hpost
    rw [List.cons_append] at hcs
    subst hcs
    have hsplit : p x = true ∧ r''.all p = true := by simpa using hall
    obtain ⟨hx, hall'⟩ := hsplit
    obtain ⟨h1, h2⟩ := ih (r'' ++ post) post rfl hall' hpost
    constructor
    · rw [List.takeWhile_cons, if_pos hx, ← h1]
    · rw [List.dropWhile_cons, if_pos hx, ← h2]

/-- Digits are word characters. -/
theorem isWordChar_of_digit {c : Char} (h : c.isDigit = true) :
    isWordChar c = true := by
  simp [isWordChar, Char.isAlphanum, h]

/-- The last element reported by `getLast?` is a member. -/
theorem mem_of_getLast?_eq {l : List Char} {a : Char}
    (h : l.getLast? = some a) : a ∈ l := by
  induction l with
  | nil => simp at h
  | cons x xs ih =>
    cases xs with
    | nil =>
      simp at h
      simp [h]
    | cons y ys =>
      rw [List.getLast?_cons_cons] at h
      exact List.mem_cons_of_mem x (ih h)

/-- `okStart` is irrelevant while no run is under construction. -/
theorem runsGo_os_irrel :
    ∀ (l : List Char) (os os' lw : Bool), runsGo os lw [] l = runsGo os' lw [] l := by
  intro l
  induction l with
  | nil => intro os os' lw; simp [runsGo]
  | cons c cs ih =>
    intro os os' lw
    simp only [runsGo]
    split
    · rfl
    · simp

/-- Consuming the remaining digits of the run under construction. -/
theorem runsGo_consume :
    ∀ (d : List Char), d.all Char.isDigit = true →
    ∀ (a : Char) (as : List Char) (os : Bool) (rest : List Char),
      (∀ c cs', rest = c :: cs' → c.isDigit = false) →
      runsGo os true (a :: as) (d ++ rest)
        = (if os ∧ 8 ≤ (a :: as).length + d.length ∧ boundaryOk rest = true
           then [(a :: as).reverse ++ d] else [])
          ++ (match rest with
              | [] => []
              | c :: cs => runsGo false (isWordChar c) [] cs) := by
  intro d
  induction d with
  | nil =>
    intro hd a as os rest hrest
    rw [List.nil_append]
    cases rest with
    | nil =>
      show runsGo os true (a :: as) []
          = (if os ∧ 8 ≤ (a :: as).length + List.length [] ∧ boundaryOk [] = true
             then [(a :: as).reverse ++ []] else []) ++ []
      simp only [List.append_nil, List.length_nil, Nat.add_zero, boundaryOk]
      simp only [runsGo]
      apply if_congr _ rfl rfl
      constructor
      · rintro ⟨h1, -, h3⟩
        exact ⟨h1, h3, trivial⟩
      · rintro ⟨h1, h3, -⟩
        exact ⟨h1, by simp, h3⟩
    | cons c cs =>
      have hc : c.isDigit = false := hrest c cs rfl
      show runsGo os true (a :: as) (c :: cs)
          = (if os ∧ 8 ≤ (a :: as).length + List.length [] ∧ boundaryOk (c :: cs) = true
             then [(a :: as).reverse ++ []] else []) ++ runsGo false (isWordChar c) [] cs
      simp only [List.append_nil, List.length_nil, Nat.add_zero, boundaryOk]
      simp only [runsGo]
      rw [if_neg (by simp [hc])]
      congr 1
      apply if_congr _ rfl rfl
      constructor
      · rintro ⟨h1, -, h3, h4⟩
        refine ⟨h1, h3, ?_⟩
        simp [Bool.not_eq_true] at h4
        simp [h4]
      · rintro ⟨h1, h3, h4⟩
        refine ⟨h1, by simp, h3, ?_⟩
        simp at h4
        simp [h4]
  | cons x d' ih =>
    intro hd a as os rest hrest
    have hx : x.isDigit = true ∧ d'.all Char.isDigit = true := by simpa using hd
    rw [List.cons_append]
    simp only [runsGo]
    rw [if_pos hx.1]
    rw [show (a :: as).isEmpty = false from rfl]
    rw [if_neg (by simp)]
    rw [ih hx.2 x (a :: as) os rest hrest]
    have hL : (x :: a :: as).length + d'.length = (a :: as).length + (x :: d').length := by
      simp only [List.length_cons]
      omega
    have hR : (x :: a :: as).reverse ++ d' = (a :: as).reverse ++ (x :: d') := by
      simp
    rw [hL, hR]

/-- The scanner finds nothing in the empty text, and the empty text has no
word-bounded runs. -/
theorem runsGo_mem_iff_nil (lw : Bool) (r : List Char) :
    (r ∈ runsGo false lw [] [] ↔
      ∃ pre post, ([] : List Char) = pre ++ r ++ post ∧ r ≠ [] ∧
        r.all Char.isDigit = true ∧ 8 ≤ r.length ∧
        (∀ c, pre.getLast? = some c → isWordChar c = false) ∧
        (pre = [] → lw = false) ∧
        (∀ c, post.head? = some c → isWordChar c = false)) := by
  constructor
  · intro h
    simp [runsGo] at h
  · rintro ⟨pre, post, hdec, hr, -, -, -, -, -⟩
    have h2 : pre ++ r ++ post = [] := hdec.symm
    rw [List.append_eq_nil, List.append_eq_nil] at h2
    exact absurd h2.1.2 hr

/-- Membership characterization of the digit-run scanner (fuel induction):
scanning `l` with no run in progress and previous-character wordness `lw`
finds exactly the word-bounded all-digit blocks of length at least 8, where a
block at the very start of `l` additionally requires `lw = false`. -/
theorem runsGo_mem_iff_aux :
    ∀ (n : Nat) (l : List Char), l.length ≤ n → ∀ (lw : Bool) (r : List Char),
      (r ∈ runsGo false lw [] l ↔
        ∃ pre post, l = pre ++ r ++ post ∧ r ≠ [] ∧ r.all Char.isDigit = true ∧
          8 ≤ r.length ∧
          (∀ c, pre.getLast? = some c → isWordChar c = false) ∧
          (pre = [] → lw = false) ∧
          (∀ c, post.head? = some c → isWordChar c = false)) := by
  intro n
  induction n with
  | zero =>
    intro l hlen lw r
    have hl : l = [] := List.eq_nil_of_length_eq_zero (Nat.le_zero.mp hlen)
    subst hl
    exact runsGo_mem_iff_nil lw r
  | succ n ih =>
    intro l hlen lw r
    cases l with
    | nil => exact runsGo_mem_iff_nil lw r
    | cons c cs =>
      by_cases hcd : c.isDigit = true
      case neg =>
        have hcdf : c.isDigit = false := by
          cases hcc : c.isDigit
        
          · rfl
          · exact absurd hcc hcd
        have hcslen : cs.length ≤ n := by
          simp only [List.length_cons] at hlen
          omega
        have hstep : runsGo false lw [] (c :: cs) = runsGo false (isWordChar c) [] cs := by
          simp only [runsGo]
          rw [if_neg (by simp [hcdf])]
          rw [if_neg (by simp)]
          rw [List.nil_append]
        rw [hstep, ih cs hcslen (isWordChar c) r]
        constructor
        · rintro ⟨pre', post, hdec, hr, hall, h8, hpre', hpre'nil, hpost⟩
          refine ⟨c :: pre', post, ?_, hr, hall, h8, ?_, ?_, hpost⟩
          · rw [hdec]
            rfl
          · intro x hx
            cases pre' with
            | nil =>
              have hx' : x = c := by simpa using hx.symm
              rw [hx']
              exact hpre'nil rfl
            | cons y pre'' =>
              rw [List.getLast?_cons_cons] at hx
              exact hpre' x hx
          · intro h
            exact absurd h (List.cons_ne_nil c pre')
        · rintro ⟨pre, post, hdec, hr, hall, h8, hpre, hprenil, hpost⟩
          cases pre with
          | nil =>
            rw [List.nil_append] at hdec
            cases r with
            | nil => exact absurd rfl hr
            | cons rh rt =>
              have hh : c = rh := by
                have h0 := congrArg List.head? hdec
                simpa using h0
              have hrh : rh.isDigit = true := by
                have h0 : rh.isDigit = true ∧ rt.all Char.isDigit = true := by
                  simpa using hall
                exact h0.1
              rw [← hh] at hrh
              exact absurd hrh (by simp [hcdf])
          | cons p0 pre' =>
            have hdec2 : cs = pre' ++ r ++ post := by
              have h0 := congrArg List.tail hdec
              simpa using h0
            have hp0 : c = p0 := by
              have h0 := congrArg List.head? hdec
              simpa using h0
            refine ⟨pre', post, hdec2, hr, hall, h8, ?_, ?_, hpost⟩
            · intro x hx
              apply hpre
              cases pre' with
              | nil => simp at hx
              | cons y pre'' =>
                rw [List.getLast?_cons_cons]
                exact hx
            · intro hnil
              subst hnil
              have h0 := hpre p0 (by simp)
              rw [hp0]
              exact h0
      case pos =>
        obtain ⟨d', rest, hdDef, hrestdef⟩ :
            ∃ d' rest, d' = cs.takeWhile Char.isDigit ∧ rest = cs.dropWhile Char.isDigit :=
          ⟨_, _, rfl, rfl⟩
        have hcs : cs = d' ++ rest := by
          rw [hdDef, hrestdef]
          exact (List.takeWhile_append_dropWhile Char.isDigit cs).symm
        have hd'all : d'.all Char.isDigit = true := by
          rw [hdDef]
          exact all_takeWhile Char.isDigit cs
        have hrest : ∀ c' cs', rest = c' :: cs' → c'.isDigit = false := by
          intro c' cs' h
          rw [hrestdef] at h
          exact head_dropWhile_not Char.isDigit cs c' cs' h
        have hstep : runsGo false lw [] (c :: cs) = runsGo (!lw) true [c] cs := by
          simp only [runsGo]
          rw [if_pos hcd]
          rfl
        rw [hstep, hcs, runsGo_consume d' hd'all c [] (!lw) rest hrest]
        have hform : ([c].reverse ++ d') = c :: d' := by simp
        have hlen1 : ([c] : List Char).length + d'.length = d'.length + 1 := by
          simp
          omega
        rw [hform, hlen1]
        cases hre : rest with
        | nil =>
          simp only [List.append_nil]
          constructor
          · intro hmem
            by_cases hco : ((!lw) = true ∧ 8 ≤ d'.length + 1 ∧ boundaryOk [] = true)
            · rw [if_pos hco] at hmem
              have hr' : r = c :: d' := by simpa using hmem
              subst hr'
              refine ⟨[], [], by simp, by simp, ?_, ?_, by simp,
                fun _ => by simpa using hco.1, by simp⟩
              · simpa [hcd] using hd'all
              · simp only [List.length_cons]
                omega
            · rw [if_neg hco] at hmem
              simp at hmem
          · rintro ⟨pre, post, hdec, hr, hall, h8, hpre, hprenil, hpost⟩
            have hld : (c :: d').all Char.isDigit = true := by
              simpa [hcd] using hd'all
            have hpren : pre = [] := by
              cases hpe : pre with
              | nil => rfl
              | cons q pre₂ =>
                obtain ⟨x, hx⟩ : ∃ x, (q :: pre₂).getLast? = some x := by
                  cases hgl : (q :: pre₂).getLast? with
                  | none =>
                    have h0 := List.getLast?_isSome.mpr (List.cons_ne_nil q pre₂)
                    rw [hgl] at h0
                    simp at h0
                  | some x => exact ⟨x, rfl⟩
                have hxmem : x ∈ c :: d' := by
                  rw [hdec, hpe]
                  exact List.mem_append_left _ (List.mem_append_left _
                    (mem_of_getLast?_eq hx))
                have hxdig := List.all_eq_true.mp hld x hxmem
                have hw := hpre x (by rw [hpe]; exact hx)
                exact absurd (isWordChar_of_digit hxdig) (by simp [hw])
            subst hpren
            rw [List.nil_append] at hdec
            have hpostn : post = [] := by
              cases hpo : post with
              | nil => rfl
              | cons x xs =>
                have hxmem : x ∈ c :: d' := by
                  rw [hdec, hpo]
                  exact List.mem_append_right _ (List.mem_cons_self x xs)
                have hxdig := List.all_eq_true.mp hld x hxmem
                have hw := hpost x (by rw [hpo]; rfl)
                exact absurd (isWordChar_of_digit hxdig) (by simp [hw])
            subst hpostn
            rw [List.append_nil] at hdec
            rw [if_pos ?cond]
            · simp [hdec]
            case cond =>
              refine ⟨by simpa using (hprenil rfl), ?_, rfl⟩
              have hrl : r.length = d'.length + 1 := by
                rw [← hdec]
                simp
              omega
        | cons c' cs' =>
          have hcs'len : cs'.length ≤ n := by
            have h2 : cs.length = d'.length + (c' :: cs').length := by
              rw [hcs, hre]
              simp
            simp only [List.length_cons] at hlen h2
            omega
          have hc'nd : c'.isDigit = false := hrest c' cs' hre
          constructor
          · intro hmem
            rcases List.mem_append.mp hmem with hm | hm
            · by_cases hco : ((!lw) = true ∧ 8 ≤ d'.length + 1 ∧
                  boundaryOk (c' :: cs') = true)
              · rw [if_pos hco] at hm
                have hr' : r = c :: d' := by simpa using hm
                subst hr'
                have hbo : isWordChar c' = false := by
                  have h0 := hco.2.2
                  simp [boundaryOk] at h0
                  exact h0
                refine ⟨[], c' :: cs', by simp, by simp, ?_, ?_, by simp,
                  fun _ => by simpa using hco.1, ?_⟩
                · simpa [hcd] using hd'all
                · simp only [List.length_cons]
                  omega
                · intro x hx
                  have hx' : x = c' := by simpa using hx.symm
                  rw [hx']
                  exact hbo
              · rw [if_neg hco] at hm
                simp at hm
            · obtain ⟨pre₂, post, hdec, hr, hall, h8, hpre₂, hpre₂nil, hpost⟩ :=
                (ih cs' hcs'len (isWordChar c') r).mp hm
              refine ⟨(c :: d') ++ (c' :: pre₂), post, ?_, hr, hall, h8, ?_, ?_, hpost⟩
              · rw [hdec]
                simp
              · intro x hx
                cases pre₂ with
                | nil =>
                  have hx' : x = c' := by
                    rw [List.getLast?_append_of_ne_nil (c :: d')
                      (List.cons_ne_nil c' [])] at hx
                    simpa using hx.symm
                  rw [hx']
                  exact hpre₂nil rfl
                | cons z pre₃ =>
                  apply hpre₂
                  rw [List.getLast?_append_of_ne_nil (c :: d')
                    (List.cons_ne_nil c' (z :: pre₃))] at hx
                  rw [List.getLast?_cons_cons] at hx
                  exact hx
              · intro h0
                simp at h0
          · rintro ⟨pre, post, hdec, hr, hall, h8, hpre, hprenil, hpost⟩
            apply List.mem_append.mpr
            cases hpe : pre with
            | nil =>
              left
              subst hpe
              rw [List.nil_append] at hdec
              cases r with
              | nil => exact absurd rfl hr
              | cons rh rt =>
                have hh : c = rh := by
                  have h0 := congrArg List.head? hdec
                  simpa using h0
                have hdec2 : d' ++ c' :: cs' = rt ++ post := by
                  have h0 := congrArg List.tail hdec
                  simpa using h0
                have hrt : rt.all Char.isDigit = true := by
                  have h0 : rh.isDigit = true ∧ rt.all Char.isDigit = true := by
                    simpa using hall
                  exact h0.2
                have hpostd : ∀ x xs', post = x :: xs' → x.isDigit = false := by
                  intro x xs' hpx
                  have hw := hpost x (by rw [hpx]; rfl)
                  cases hxd : x.isDigit
                  · rfl
                  · exact absurd (isWordChar_of_digit hxd) (by simp [hw])
                have hcsd : ∀ x xs', (c' :: cs' : List Char) = x :: xs' →
                    Char.isDigit x = false := by
                  intro x xs' hx0
                  have hxc : x = c' := by
                    have h0 := congrArg List.head? hx0
                    simpa using h0.symm
                  rw [hxc]
                  exact hc'nd
                obtain ⟨hA, hB⟩ := digit_split_unique Char.isDigit d'
                  (d' ++ c' :: cs') (c' :: cs') rfl hd'all hcsd
                obtain ⟨hC, hD⟩ := digit_split_unique Char.isDigit rt
                  (d' ++ c' :: cs') post hdec2 hrt hpostd
                have hrtd : rt = d' := by rw [hC, ← hA]
                have hpp : post = c' :: cs' := by rw [hD, ← hB]
                rw [if_pos ?condc]
                · simp [← hh, hrtd]
                case condc =>
                  refine ⟨by simpa using (hprenil rfl), ?_, ?_⟩
                  · have h0 : rt.length = d'.length := by rw [hrtd]
                    simp only [List.length_cons] at h8
                    omega
                  · have hph : isWordChar c' = false := by
                      have hw := hpost c' (by rw [hpp]; rfl)
                      exact hw
                    simp [boundaryOk, hph]
            | cons p0 pre₁ =>
              right
              subst hpe
              have hp0 : c = p0 := by
                have h0 := congrArg List.head? hdec
                simpa using h0
              have hdec2 : d' ++ c' :: cs' = pre₁ ++ r ++ post := by
                have h0 := congrArg List.tail hdec
                simpa using h0
              have hhh : pre₁ ++ (r ++ post) = d' ++ (c' :: cs') := by
                rw [← List.append_assoc, ← hdec2]
              rcases List.append_eq_append_iff.mp hhh with ⟨a', hda, hba⟩ | ⟨c'', hac, hdc⟩
              · cases a' with
                | nil =>
                  rw [List.nil_append] at hba
                  cases r with
                  | nil => exact absurd rfl hr
                  | cons rh rt =>
                    have hrh : rh.isDigit = true := by
                      have h0 : rh.isDigit = true ∧ rt.all Char.isDigit = true := by
                        simpa using hall
                      exact h0.1
                    have hhd : rh = c' := by
                      have h0 := congrArg List.head? hba
                      simpa using h0
                    rw [hhd] at hrh
                    exact absurd hrh (by simp [hc'nd])
                | cons y a'' =>
                  cases pre₁ with
                  | nil =>
                    have hlast := hpre p0 (by simp)
                    rw [← hp0] at hlast
                    exact absurd (isWordChar_of_digit hcd) (by simp [hlast])
                  | cons q pre₂ =>
                    obtain ⟨x, hx⟩ : ∃ x, (q :: pre₂).getLast? = some x := by
                      cases hgl : (q :: pre₂).getLast? with
                      | none =>
                        have h0 := List.getLast?_isSome.mpr (List.cons_ne_nil q pre₂)
                        rw [hgl] at h0
                        simp at h0
                      | some x => exact ⟨x, rfl⟩
                    have hxd' : x ∈ d' := by
                      rw [hda]
                      exact List.mem_append_left _ (mem_of_getLast?_eq hx)
                    have hxdig := List.all_eq_true.mp hd'all x hxd'
                    have hlast := hpre x (by rw [List.getLast?_cons_cons]; exact hx)
                    exact absurd (isWordChar_of_digit hxdig) (by simp [hlast])
              · cases c'' with
                | nil =>
                  rw [List.nil_append] at hdc
                  cases r with
                  | nil => exact absurd rfl hr
                  | cons rh rt =>
                    have hrh : rh.isDigit = true := by
                      have h0 : rh.isDigit = true ∧ rt.all Char.isDigit = true := by
                        simpa using hall
                      exact h0.1
                    have hhd : c' = rh := by
                      have h0 := congrArg List.head? hdc
                      simpa using h0
                    rw [← hhd] at hrh
                    exact absurd hrh (by simp [hc'nd])
                | cons q pre₂ =>
                  have hq : c' = q ∧ cs' = pre₂ ++ (r ++ post) := by
                    constructor
                    · have h0 := congrArg List.head? hdc
                      simpa using h0
                    · have h0 := congrArg List.tail hdc
                      simpa using h0
                  apply (ih cs' hcs'len (isWordChar c') r).mpr
                  refine ⟨pre₂, post, ?_, hr, hall, h8, ?_, ?_, hpost⟩
                  · rw [hq.2, List.append_assoc]
                  · intro x hx
                    apply hpre
                    have hpre₂ne : pre₂ ≠ [] := by
                      intro h0
                      rw [h0] at hx
                      simp at hx
                    have hshape : p0 :: pre₁ = ((p0 :: d') ++ [q]) ++ pre₂ := by
                      rw [hac]
                      simp
                    rw [hshape, List.getLast?_append_of_ne_nil _ hpre₂ne]
                    exact hx
                  · intro hnil
                    subst hnil
                    have hlast := hpre q ?hq2
                    · rw [hq.1]
                      exact hlast
                    case hq2 =>
                      have hshape : p0 :: pre₁ = (p0 :: d') ++ [q] := by
                        rw [hac]
                        simp
                      rw [hshape, List.getLast?_append_of_ne_nil _
                        (List.cons_ne_nil q [])]
                      simp

/-- Top-level membership: the codes found are exactly the word-bounded digit
runs of length at least 8 of the cleaned text. -/
theorem findCodes_mem_iff (t : List Char) (s : String) :
    s ∈ findCodes t ↔ wordBoundedRun (cleanCodes t) s.data ∧ 8 ≤ s.data.length := by
  unfold findCodes
  rw [List.mem_map]
  constructor
  · rintro ⟨rl, hrl, hmk⟩
    have hs : s.data = rl := by rw [← hmk]
    obtain ⟨pre, post, hdec, hr, hall, h8, hpre, hprenil, hpost⟩ :=
      (runsGo_mem_iff_aux (cleanCodes t).length (cleanCodes t) le_rfl false rl).mp hrl
    rw [← hs] at hdec hr hall h8
    exact ⟨⟨pre, post, hdec, hr, hall, hpre, hpost⟩, h8⟩
  · rintro ⟨⟨pre, post, hdec, hr, hall, hpre, hpost⟩, h8⟩
    refine ⟨s.data, ?_, rfl⟩
    apply (runsGo_mem_iff_aux (cleanCodes t).length (cleanCodes t) le_rfl false s.data).mpr
    exact ⟨pre, post, hdec, hr, hall, h8, hpre, fun _ => rfl, hpost⟩

/-- Lexicographic comparability of any two character lists. -/
theorem lexLe_total : ∀ a b : List Char, lexLe a b = true ∨ lexLe b a = true := by
  intro a
  induction a with
  | nil => intro b; left; rfl
  | cons x xs ih =>
    intro b
    cases b with
    | nil => right; rfl
    | cons y ys =>
      by_cases hxy : x < y
      · left
        simp [lexLe, hxy]
      · by_cases hyx : y < x
        · right
          simp [lexLe, hyx]
        · have hxe : x = y := le_antisymm (le_of_not_lt hyx) (le_of_not_lt hxy)
          subst hxe
          rcases ih ys with h | h
          · left
            simp [lexLe, h]
          · right
            simp [lexLe, h]

/-- Transitivity of the lexicographic comparison. -/
theorem lexLe_trans :
    ∀ a b c : List Char, lexLe a b = true → lexLe b c = true → lexLe a c = true := by
  intro a
  induction a with
  | nil => intro b c _ _; rfl
  | cons x xs ih =>
    intro b c hab hbc
    cases b with
    | nil => simp [lexLe] at hab
    | cons y ys =>
      cases c with
      | nil => simp [lexLe] at hbc
      | cons z zs =>
        by_cases hyz : y < z
        · by_cases hxy : x < y
          · have hxz : x < z := lt_trans hxy hyz
            simp [lexLe, hxz]
          · by_cases hxyeq : x = y
            · subst hxyeq
              simp [lexLe, hyz]
            · simp [lexLe, hxy, hxyeq] at hab
        · by_cases hyzeq : y = z
          · subst hyzeq
            have hbc' : lexLe ys zs = true := by
              simpa [lexLe, hyz] using hbc
            by_cases hxy : x < y
            · simp [lexLe, hxy]
            · by_cases hxyeq : x = y
              · subst hxyeq
                have hab' : lexLe xs ys = true := by
                  simpa [lexLe, hxy] using hab
                simp [lexLe, hxy, ih ys zs hab' hbc']
              · simp [lexLe, hxy, hxyeq] at hab
          · simp [lexLe, hyz, hyzeq] at hbc

/-- Membership through sorted insertion. -/
theorem mem_insSorted (s x : String) :
    ∀ l : List String, s ∈ insSorted x l ↔ s = x ∨ s ∈ l := by
  intro l
  induction l with
  | nil => simp [insSorted]
  | cons t ts ih =>
    simp only [insSorted]
    split
    · simp
    · rw [List.mem_cons, ih, List.mem_cons]
      tauto

/-- Sorted insertion keeps the list sorted. -/
theorem pairwise_insSorted (x : String) :
    ∀ l : List String, List.Pairwise (fun a b => lexLe a.data b.data = true) l →
      List.Pairwise (fun a b => lexLe a.data b.data = true) (insSorted x l) := by
  intro l
  induction l with
  | nil => intro _; simp [insSorted]
  | cons t ts ih =>
    intro hp
    rw [List.pairwise_cons] at hp
    obtain ⟨ht, hts⟩ := hp
    simp only [insSorted]
    split
    · next hle =>
      rw [List.pairwise_cons]
      refine ⟨?_, List.pairwise_cons.mpr ⟨ht, hts⟩⟩
      intro b hb
      rcases List.mem_cons.mp hb with rfl | hb'
      · exact hle
      · exact lexLe_trans x.data t.data b.data hle (ht b hb')
    · next hnle =>
      rw [List.pairwise_cons]
      constructor
      · intro b hb
        rcases (mem_insSorted b x ts).mp hb with hbx | hb'
        · rw [hbx]
          rcases lexLe_total x.data t.data with h | h
          · exact absurd h hnle
          · exact h
        · exact ht b hb'
      · exact ih hts

/-- Sorted insertion of a fresh element keeps the list duplicate-free. -/
theorem nodup_insSorted (x : String) :
    ∀ l : List String, x ∉ l → l.Nodup → (insSorted x l).Nodup := by
  intro l
  induction l with
  | nil => intro _ _; simp [insSorted]
  | cons t ts ih =>
    intro hx hnd
    rw [List.nodup_cons] at hnd
    obtain ⟨htts, hts⟩ := hnd
    simp only [insSorted]
    split
    · rw [List.nodup_cons]
      exact ⟨hx, List.nodup_cons.mpr ⟨htts, hts⟩⟩
    · rw [List.nodup_cons]
      constructor
      · intro hmem
        rcases (mem_insSorted t x ts).mp hmem with rfl | h'
        · exact hx (List.mem_cons_self _ _)
        · exact htts h'
      · exact ih (fun hm => hx (List.mem_cons_of_mem t hm)) hts

/-- Sorting preserves membership. -/
theorem mem_sortStrings (s : String) : ∀ l : List String, s ∈ sortStrings l ↔ s ∈ l := by
  intro l
  induction l with
  | nil => simp [sortStrings]
  | cons x xs ih =>
    simp only [sortStrings, List.foldr_cons] at ih ⊢
    rw [mem_insSorted, ih, List.mem_cons]

/-- The sort produces a lexicographically nondecreasing list. -/
theorem pairwise_sortStrings :
    ∀ l : List String,
      List.Pairwise (fun a b => lexLe a.data b.data = true) (sortStrings l) := by
  intro l
  induction l with
  | nil => simp [sortStrings]
  | cons x xs ih =>
    simp only [sortStrings, List.foldr_cons] at ih ⊢
    exact pairwise_insSorted x _ ih

/-- The sort keeps a duplicate-free list duplicate-free. -/
theorem nodup_sortStrings : ∀ l : List String, l.Nodup → (sortStrings l).Nodup := by
  intro l
  induction l with
  | nil => intro _; simp [sortStrings]
  | cons x xs ih =>
    intro hnd
    rw [List.nodup_cons] at hnd
    simp only [sortStrings, List.foldr_cons]
    apply nodup_insSorted
    · intro hm
      exact hnd.1 ((mem_sortStrings x xs).mp hm)
    · exact ih hnd.2

/-- C6: the `ten_digit` field joins with " // " the sorted distinct
word-bounded digit runs of length exactly 10 of the cleaned page text, and
`eight_digit` does the same for length exactly 8: the sorted distinct code
list contains exactly the word-bounded digit runs of length at least 8, it is
strictly sorted, and a code of any other length (9, or 11 and more) enters
neither field's list. -/
theorem c6_extract_cost_centre_codes_spec (t : List Char) :
    ((extract_cost_centre_codes t).ten_digit
        = joinSep " // "
            ((sortStrings (findCodes t).dedup).filter fun c => c.length == 10)) ∧
    ((extract_cost_centre_codes t).eight_digit
        = joinSep " // "
            ((sortStrings (findCodes t).dedup).filter fun c => c.length == 8)) ∧
    (∀ s : String, s ∈ sortStrings (findCodes t).dedup ↔
        wordBoundedRun (cleanCodes t) s.data ∧ 8 ≤ s.data.length) ∧
    List.Pairwise (fun a b => lexLe a.data b.data = true ∧ a ≠ b)
      (sortStrings (findCodes t).dedup) ∧
    (∀ s : String, s.length ≠ 10 →
        s ∉ (sortStrings (findCodes t).dedup).filter (fun c => c.length == 10)) ∧
    (∀ s : String, s.length ≠ 8 →
        s ∉ (sortStrings (findCodes t).dedup).filter (fun c => c.length == 8)) := by
  refine ⟨rfl, rfl, ?_, ?_, ?_, ?_⟩
  · intro s
    rw [mem_sortStrings, List.mem_dedup, findCodes_mem_iff]
  · exact (pairwise_sortStrings (findCodes t).dedup).and
      (nodup_sortStrings (findCodes t).dedup (findCodes t).nodup_dedup)
  · intro s hs hmem
    have h0 := (List.mem_filter.mp hmem).2
    simp at h0
    exact hs h0
  · intro s hs hmem
    have h0 := (List.mem_filter.mp hmem).2
    simp at h0
    exact hs h0

/-- Witness for C6: a concrete page text with a ten-digit bounded run, an
eight-digit bounded run, and a nine-digit run glued to a letter (not word
bounded); the nine-digit string is in neither field. -/
theorem c6_extract_cost_centre_codes_witness :
    (extract_cost_centre_codes ("ab 1234567890, 12345678 and 123456789x".data)).ten_digit
        = "1234567890" ∧
    ("123456789" : String)
      ∉ (sortStrings
          (findCodes ("ab 1234567890, 12345678 and 123456789x".data)).dedup).filter
          (fun c => c.length == 10) := by
  constructor
  · exact (c6_extract_cost_centre_codes_spec
      ("ab 1234567890, 12345678 and 123456789x".data)).1.trans (by decide)
  · exact (c6_extract_cost_centre_codes_spec
      ("ab 1234567890, 12345678 and 123456789x".data)).2.2.2.2.1 "123456789" (by decide)

/-- Length of the carving loop's output. -/
theorem carveLimits_length (cleanL : List Char) :
    ∀ bs : List (String × Option Nat), (carveLimits cleanL bs).length = bs.length := by
  intro bs
  induction bs with
  | nil => rfl
  | cons b rest ih =>
    obtain ⟨h, pos⟩ := b
    simp [carveLimits, ih]

/-- Indexing the carving loop's output. -/
theorem carveLimits_getD (cleanL : List Char) :
    ∀ (bs : List (String × Option Nat)) (i : Nat) (h : i < bs.length),
      (carveLimits cleanL bs).getD i ""
        = limitEntry cleanL (bs.get ⟨i, h⟩).1 (bs.get ⟨i, h⟩).2 (bs.drop (i + 1)) := by
  intro bs
  induction bs with
  | nil => intro i h; exact absurd h (by simp)
  | cons b rest ih =>
    intro i h
    obtain ⟨hd, pos⟩ := b
    cases i with
    | zero => rfl
    | succ j =>
      have hj : j < rest.length := by simpa using h
      have hstep : (carveLimits cleanL ((hd, pos) :: rest)).getD (j + 1) ""
          = (carveLimits cleanL rest).getD j "" := rfl
      rw [hstep, ih j hj]
      rfl

/-- C10: `extract_limits` returns exactly twelve entries, one per financial
heading in their fixed order; the entry of a heading not found in the cleaned
text is "None"; the entry of a heading found at position `s` is the text
carved from `s` to the next found heading (to the end when there is none),
stripped, with the heading removed and truncated at the first
"FINANCIAL DIRECTION X:" / "OTHER FINANCIAL DELEGATIONS" marker, and "None"
when that chunk comes out empty. -/
theorem c10_extract_limits_spec (t : List Char) :
    FINANCIAL_HEADINGS.length = 12 ∧
    (extract_limits t).length = 12 ∧
    ∀ i : Nat, ∀ hi : i < 12,
      (searchCI (FINANCIAL_HEADINGS.get ⟨i, hi⟩).data (cleanLimits t) = none →
        (extract_limits t).getD i "" = "None") ∧
      (∀ s : Nat,
        searchCI (FINANCIAL_HEADINGS.get ⟨i, hi⟩).data (cleanLimits t) = some s →
        (extract_limits t).getD i ""
          = limitEntry (cleanLimits t) (FINANCIAL_HEADINGS.get ⟨i, hi⟩) (some s)
              ((limitBoundaries (cleanLimits t)).drop (i + 1))) := by
  have hb : (limitBoundaries (cleanLimits t)).length = 12 := by
    simp [limitBoundaries, FINANCIAL_HEADINGS]
  refine ⟨rfl, ?_, ?_⟩
  · unfold extract_limits
    rw [carveLimits_length]
    exact hb
  · intro i hi
    have hib : i < (limitBoundaries (cleanLimits t)).length := by
      rw [hb]
      exact hi
    have hkey := carveLimits_getD (cleanLimits t) (limitBoundaries (cleanLimits t)) i hib
    have hget : (limitBoundaries (cleanLimits t)).get ⟨i, hib⟩
        = (FINANCIAL_HEADINGS.get ⟨i, hi⟩,
           searchCI (FINANCIAL_HEADINGS.get ⟨i, hi⟩).data (cleanLimits t)) := by
      simp [limitBoundaries, List.get_eq_getElem, List.getElem_map]
    rw [hget] at hkey
    dsimp only at hkey
    constructor
    · intro hnone
      unfold extract_limits
      rw [hkey, hnone]
      rfl
    · intro s hs
      unfold extract_limits
      rw [hkey, hs]

/-- Witness for C10: a heading found at the start of the page yields its
carved limit text, and on a page without headings the entry is "None". -/
theorem c10_extract_limits_witness :
    (extract_limits ("Issuing orders/ approving payment commitments up to 500".data)).getD 0 ""
        = "up to 500" ∧
    (extract_limits ("no headings here".data)).getD 1 "" = "None" := by
  constructor
  · have h := ((c10_extract_limits_spec
        ("Issuing orders/ approving payment commitments up to 500".data)).2.2 0
        (by omega)).2 0 (by decide)
    exact h.trans (by decide)
  · exact ((c10_extract_limits_spec ("no headings here".data)).2.2 1 (by omega)).1
      (by decide)

/-- Witness for C5: a template with a repeated dict placeholder, two common
variables and an unbound token, against a one-entry dict. -/
theorem c5_process_variables_witness :
    (process_variables (String.mk (renderT itemsW)) [("name", "Ada")]
        ⟨"01/02/2026", "Sunday", "12:00:00"⟩).data
      = ("Hi Ada and Ada: 01/02/2026 Finance Department \x7bmissing\x7d" : String).data :=
  ((c5_process_variables_spec itemsW [("name", "Ada")]
      ⟨"01/02/2026", "Sunday", "12:00:00"⟩
      (by decide) (by decide) (by decide)).1).trans (by decide)

end Dashboard
